import Mathlib

/-!
# InternTrack: the keyword-overlap resume matcher

A shallow embedding of `src/utils/matchScore.js` and proofs about it.

JavaScript strings are modelled by Lean strings (sequences of Unicode
characters).  The tokenizer only ever keeps the ASCII characters
`a-z 0-9 + # . -`; every other character is turned into a separator, so the
difference between UTF-16 code units and Unicode characters is not observable
in the keyword sequences.

The score is computed by the source in IEEE-754 double arithmetic
(`Math.round((matched / total) * 100)`).  Doubles are modelled exactly, as
fractions of natural numbers, with round-to-nearest, ties-to-even.
-/

namespace InternTrack

/-! ## Input values -/

/-- The values the matcher receives for a text: a string, `null` or `undefined`. -/
inductive Text where
  | null : Text
  | undefined : Text
  | str (s : String) : Text
  deriving DecidableEq, Repr

/-! ## The tokenizer (`extractKeywords`) -/

/-- The stop-word set of `extractKeywords` (source lines 62-80). -/
def stopWords : List String := [
  "a", "an", "the", "and", "or", "but", "in", "on", "at", "to", "for",
  "of", "with", "by", "from", "as", "is", "was", "are", "were", "been",
  "be", "have", "has", "had", "do", "does", "did", "will", "would",
  "could", "should", "may", "might", "must", "shall", "can", "need",
  "dare", "ought", "used", "it", "its", "this", "that", "these", "those",
  "i", "you", "he", "she", "we", "they", "what", "which", "who", "whom",
  "where", "when", "why", "how", "all", "each", "every", "both", "few",
  "more", "most", "other", "some", "such", "no", "nor", "not", "only",
  "own", "same", "so", "than", "too", "very", "just", "also", "now",
  "our", "your", "their", "my", "his", "her", "about", "into", "through",
  "during", "before", "after", "above", "below", "between", "under",
  "again", "further", "then", "once", "here", "there", "any", "up",
  "down", "out", "off", "over", "under", "while", "if", "because",
  "until", "unless", "although", "though", "since", "even", "etc",
  "ie", "eg", "per", "via", "amp", "years", "year", "experience",
  "team", "work", "working", "ability", "skills", "strong", "including",
  "responsibilities", "requirements", "required", "preferred", "looking"]

/-- The short technical terms of `extractKeywords` (source line 93). -/
def techTerms : List String :=
  ["ai", "ml", "ui", "ux", "qa", "ci", "cd", "js", "ts", "db", "c#", "c++"]

/-- The result of `String.prototype.toLowerCase` on one character.  `A-Z` map
to `a-z`; the Kelvin sign U+212A maps to `k` and U+0130 to `i` followed by the
combining dot U+0307.  These are the only characters whose lower-case form
contains an ASCII character different from the character itself; every other
character is left as it is here, since its lower-case form is, like itself,
neither ASCII nor white space and is replaced by a space in the next step. -/
def lowerChar (c : Char) : List Char :=
  if 65 ≤ c.toNat ∧ c.toNat ≤ 90 then [Char.ofNat (c.toNat + 32)]
  else if c.toNat = 0x212A then ['k']
  else if c.toNat = 0x0130 then ['i', Char.ofNat 0x0307]
  else [c]

/-- The method `toLowerCase` on a sequence of characters. -/
def toLowerCase (s : List Char) : List Char :=
  s.flatMap lowerChar

/-- The regular-expression class `\s`: the ECMAScript white space and line
terminator characters. -/
def isWhiteSpace (c : Char) : Bool :=
  let n := c.toNat
  n = 0x09 || n = 0x0A || n = 0x0B || n = 0x0C || n = 0x0D || n = 0x20 ||
  n = 0xA0 || n = 0x1680 || (0x2000 ≤ n && n ≤ 0x200A) || n = 0x2028 ||
  n = 0x2029 || n = 0x202F || n = 0x205F || n = 0x3000 || n = 0xFEFF

/-- The characters outside the negated class `[^a-z0-9+#.\s-]`, that is, the
characters the `replace` call leaves untouched. -/
def isKept (c : Char) : Bool :=
  let n := c.toNat
  (97 ≤ n && n ≤ 122) || (48 ≤ n && n ≤ 57) ||
  c = '+' || c = '#' || c = '.' || isWhiteSpace c || c = '-'

/-- The call `.replace(/[^a-z0-9+#.\s-]/g, ' ')`: every character of the negated
class becomes one space. -/
def replaceSpecial (s : List Char) : List Char :=
  s.map fun c => if isKept c then c else ' '

/-- The loop of `.split(/\s+/)`: `cur` is the current piece in reverse,
`inRun` tells whether the previous character belonged to a separator. -/
def splitGo : Bool → List Char → List Char → List (List Char)
  | _, cur, [] => [cur.reverse]
  | inRun, cur, c :: cs =>
    if isWhiteSpace c then
      if inRun then splitGo true [] cs else cur.reverse :: splitGo true [] cs
    else splitGo false (c :: cur) cs

/-- The call `.split(/\s+/)`: the pieces between maximal runs of white space;
a leading or trailing run yields an empty first or last piece. -/
def splitWhitespace (s : List Char) : List (List Char) :=
  splitGo false [] s

/-- The filter predicate of `extractKeywords` (source line 94). -/
def keepWord (word : String) : Bool :=
  (decide (2 ≤ word.length) && !(stopWords.contains word)) || techTerms.contains word

/-- The function `extractKeywords` (source lines 57-98).  The guard `!text`
holds for `null`, `undefined` and the empty string. -/
def extractKeywords (text : Text) : List String :=
  match text with
  | Text.null => []
  | Text.undefined => []
  | Text.str s =>
    if s.data.isEmpty then []
    else
      ((splitWhitespace (replaceSpecial (toLowerCase s.data))).map String.mk).filter keepWord

/-! ## Double-precision arithmetic -/

/-- The integer nearest to `a / b`, ties to the even one (`b > 0`). -/
def roundHalfEven (a b : Nat) : Nat :=
  let q := a / b
  let r := a % b
  if 2 * r < b then q
  else if b < 2 * r then q + 1
  else if q % 2 = 0 then q else q + 1

/-- A finite non-negative double, as the fraction `num / den`. -/
structure Dbl where
  num : Nat
  den : Nat
  deriving DecidableEq, Repr

/-- The loop computing `⌊log₂ n⌋` by repeated halving; `fuel` bounds the number
of halvings. -/
def log2Fuel : Nat → Nat → Nat
  | 0, _ => 0
  | fuel + 1, n => if 2 ≤ n then log2Fuel fuel (n / 2) + 1 else 0

/-- The position of the leading binary digit: `⌊log₂ n⌋` for `n > 0`. -/
def floorLog2 (n : Nat) : Nat := log2Fuel n n

/-- The double nearest to the fraction `a / b` (`b > 0`), round-to-nearest,
ties-to-even, with a 53-bit significand: the fraction is scaled by a power of
two into `[2^52, 2^53)`, rounded to an integer and scaled back (`up` and `dn`
are the positive and the negative part of the binary exponent).  Exponent range
is not limited; the quotients and products of the matcher (array lengths below
`2^32`, times 100) are far from the overflow and subnormal thresholds. -/
def toDouble (a b : Nat) : Dbl :=
  if a = 0 then ⟨0, 1⟩
  else
    let la := floorLog2 a
    let lb := floorLog2 b
    let c := if b * 2 ^ la ≤ a * 2 ^ lb then 52 else 53
    let up := la - (lb + c)
    let dn := (lb + c) - la
    ⟨roundHalfEven (a * 2 ^ dn) (b * 2 ^ up) * 2 ^ up, 2 ^ dn⟩

/-- Double division `m / n` of two array lengths (exactly representable
integers); `none` stands for the non-finite result (`NaN` or `Infinity`) of a
division by zero. -/
def Dbl.ofDiv (m n : Nat) : Option Dbl :=
  if n = 0 then none else some (toDouble m n)

/-- Double multiplication of a double by the integer `k`. -/
def Dbl.mulNat (x : Dbl) (k : Nat) : Dbl := toDouble (x.num * k) x.den

/-- The function `Math.round` on a non-negative double: the nearest integer,
ties towards `+∞`, that is `⌊x + 1/2⌋`. -/
def mathRound (x : Dbl) : Nat := (2 * x.num + x.den) / (2 * x.den)

/-- The expression `Math.round((matched / total) * 100)` of source line 40;
`none` stands for `NaN`, the value of the expression when `total` is zero. -/
def percentage (matched total : Nat) : Option Nat :=
  (Dbl.ofDiv matched total).map fun q => mathRound (q.mulNat 100)

/-! ## The scorer (`calculateMatchScore`) -/

/-- The value returned by `calculateMatchScore`; a `score` of `none` would be
the JavaScript number `NaN`. -/
structure MatchResult where
  score : Option Nat
  matchedKeywords : List String
  missingKeywords : List String
  deriving DecidableEq, Repr

/-- The expression `[...new Set(xs)]`: the elements are added to an initially
empty set one by one, an element already present is ignored, and the set is
listed in insertion order. -/
def setToArray (xs : List String) : List String :=
  xs.foldl (fun acc x => if acc.contains x then acc else acc ++ [x]) []

/-- The body of `calculateMatchScore` after the two calls of `extractKeywords`
(source lines 24-47). -/
def matchKeywords (resumeKeywords jobKeywords : List String) : MatchResult :=
  let matchedKeywords := jobKeywords.filter fun keyword => resumeKeywords.contains keyword
  let missingKeywords := jobKeywords.filter fun keyword => !(resumeKeywords.contains keyword)
  let score :=
    if 0 < jobKeywords.length then percentage matchedKeywords.length jobKeywords.length
    else some 0
  { score := score
    matchedKeywords := setToArray matchedKeywords
    missingKeywords := (setToArray missingKeywords).take 15 }

/-- The function `calculateMatchScore` (source lines 19-48). -/
def calculateMatchScore (resumeText jobDescription : Text) : MatchResult :=
  matchKeywords (extractKeywords resumeText) (extractKeywords jobDescription)

/-! ## Reference notions used in the statements -/

/-- The duplicate-free list of the elements of a list, in the order of their
first occurrences. -/
def dedupKeepFirst : List String → List String
  | [] => []
  | x :: xs => x :: (dedupKeepFirst xs).filter fun y => y ≠ x

/-- The integer nearest to the exact fraction `a / b`, halves rounded up. -/
def roundHalfUp (a b : Nat) : Nat := (2 * a + b) / (2 * b)

/-- A job description with 40 keywords: 23 times `aa`, then 17 times `bb`. -/
def fortyKeywords : String :=
  "aa aa aa aa aa aa aa aa aa aa aa aa aa aa aa aa aa aa aa aa aa aa aa " ++
  "bb bb bb bb bb bb bb bb bb bb bb bb bb bb bb bb bb"

/-- A job description with 16 distinct keywords. -/
def sixteenKeywords : String :=
  "k01 k02 k03 k04 k05 k06 k07 k08 k09 k10 k11 k12 k13 k14 k15 k16"


/-- The characters a keyword may consist of: `a-z`, `0-9`, `+`, `#`, `.`, `-`. -/
def isTokenChar (c : Char) : Bool :=
  let n := c.toNat
  (97 ≤ n && n ≤ 122) || (48 ≤ n && n ≤ 57) ||
  c = '+' || c = '#' || c = '.' || c = '-'

/-- The whitespace-delimited words of a text: the non-empty pieces between
white-space characters, in their order, duplicates kept. -/
def wordsOf (l : List Char) : List (List Char) :=
  (l.splitOnP isWhiteSpace).filter fun w => !w.isEmpty

/-- The characters of the input that take part in a keyword: the ASCII
letters, the digits, `+ # . -`, and the two characters whose lower-case form
contains an ASCII letter (the Kelvin sign U+212A and U+0130). -/
def isWordChar (c : Char) : Bool :=
  isTokenChar c || (65 ≤ c.toNat && c.toNat ≤ 90) || c.toNat = 0x212A || c.toNat = 0x0130

/-! ## The suggestion generator (`getMatchSuggestions`) -/

/-- The message pushed for a score below 30 (source line 113). -/
def lowMatchMessage : String :=
  "Your resume may not be a strong match for this role. Consider tailoring it more specifically."

/-- The message pushed for a score from 30 to 49 (source line 115). -/
def roomToImproveMessage : String :=
  "There's room to improve your match. Add more relevant keywords from the job description."

/-- The message pushed for a score from 50 to 69 (source line 117). -/
def goodMatchMessage : String :=
  "Good match! A few additions could make your resume even stronger."

/-- The message pushed for a score of 70 or more (source line 119). -/
def excellentMatchMessage : String :=
  "Excellent match! Your resume aligns well with this job description."

/-- The fixed beginning of the keyword message (source line 125). -/
def keywordMessagePrefix : String :=
  "Consider adding these keywords if relevant to your experience: "

/-- The function `getMatchSuggestions` (source lines 108-129), for an integer
score.  `suggestions.push` appends at the end; `slice(0, 5).join(', ')` is the
first five keywords with `", "` between them. -/
def getMatchSuggestions (score : Int) (missingKeywords : List String) : List String :=
  let suggestions : List String := []
  let suggestions :=
    if score < 30 then suggestions ++ [lowMatchMessage]
    else if score < 50 then suggestions ++ [roomToImproveMessage]
    else if score < 70 then suggestions ++ [goodMatchMessage]
    else suggestions ++ [excellentMatchMessage]
  if 0 < missingKeywords.length then
    let keyTerms := ", ".intercalate (missingKeywords.take 5)
    suggestions ++ [keywordMessagePrefix ++ keyTerms]
  else suggestions

/-- The scorer with the candidate keywords held in a set: membership is tested
in the set of distinct candidate keywords instead of the keyword array. -/
def matchKeywordsBySet (resumeSet : Finset String) (jobKeywords : List String) :
    MatchResult :=
  let matchedKeywords := jobKeywords.filter fun keyword => decide (keyword ∈ resumeSet)
  let missingKeywords := jobKeywords.filter fun keyword => !decide (keyword ∈ resumeSet)
  let score :=
    if 0 < jobKeywords.length then percentage matchedKeywords.length jobKeywords.length
    else some 0
  { score := score
    matchedKeywords := setToArray matchedKeywords
    missingKeywords := (setToArray missingKeywords).take 15 }

/-- The tier message of a score: low match below 30, room to improve from 30
to 49, good match from 50 to 69, excellent match from 70 on. -/
def tierMessage (score : Int) : String :=
  if score < 30 then lowMatchMessage
  else if score < 50 then roomToImproveMessage
  else if score < 70 then goodMatchMessage
  else excellentMatchMessage

/-- The filter of the tokenizer without the technical-term allowlist: length at
least 2 and not a stop word. -/
def keepWordWithoutAllowlist (word : String) : Bool :=
  decide (2 ≤ word.length) && !(stopWords.contains word)

/-- The tokenizer whose filter is only (length at least 2 and not a stop word). -/
def extractKeywordsWithoutAllowlist (text : Text) : List String :=
  match text with
  | Text.null => []
  | Text.undefined => []
  | Text.str s =>
    if s.data.isEmpty then []
    else
      ((splitWhitespace (replaceSpecial (toLowerCase s.data))).map String.mk).filter
        keepWordWithoutAllowlist

/-- A job description with 200 keywords: 199 times `aa`, then `bb`. -/
def twoHundredKeywords : String :=
  String.mk ((List.replicate 199 "aa ".data).flatten ++ "bb".data)

/-! ## The application records (`Dashboard.jsx`, `Tracker.jsx`, `statusClasses.js`) -/

/-- An application record, as far as the pages read it.  A field is `none`
when it is absent (`undefined` or `null`) and a string otherwise. -/
structure Application where
  company : Option String
  role : Option String
  status : Option String
  deriving DecidableEq, Repr

/-- The object `counts` of the Dashboard (source lines 27-34). -/
structure Counts where
  Applied : Nat
  OA : Nat
  Interview : Nat
  Rejected : Nat
  Offer : Nat
  total : Nat
  deriving DecidableEq, Repr

/-- The body of the loop of `stats` (source lines 37-39): when `app.status` is
the name of an own property of `counts`, that property is incremented.  The own
properties are the five statuses and `total`; an absent status is the key
`"undefined"` or `"null"`, which is not an own property. -/
def countStatus (counts : Counts) (app : Application) : Counts :=
  match app.status with
  | none => counts
  | some status =>
    if status = "Applied" then { counts with Applied := counts.Applied + 1 }
    else if status = "OA" then { counts with OA := counts.OA + 1 }
    else if status = "Interview" then { counts with Interview := counts.Interview + 1 }
    else if status = "Rejected" then { counts with Rejected := counts.Rejected + 1 }
    else if status = "Offer" then { counts with Offer := counts.Offer + 1 }
    else if status = "total" then { counts with total := counts.total + 1 }
    else counts

/-- The value `stats` of the Dashboard (source lines 26-43). -/
def stats (applications : List Application) : Counts :=
  applications.foldl countStatus
    { Applied := 0, OA := 0, Interview := 0, Rejected := 0, Offer := 0,
      total := applications.length }

/-- The method `String.prototype.includes`: `search` occurs in `s` as a
contiguous piece. -/
def includes (s search : String) : Bool :=
  decide (search.data <:+: s.data)

/-- The first filter of `filteredApplications` (source lines 22-28):
`app.company?.toLowerCase().includes(search) || app.role?.toLowerCase().includes(search)`,
read as a truth value.  An absent field makes its side `undefined`, which is
falsy.  The built-in `toLowerCase` is the parameter `lower`. -/
def matchesSearch (lower : String → String) (searchTerm : String) (app : Application) : Bool :=
  let search := lower searchTerm
  (match app.company with
   | none => false
   | some company => includes (lower company) search) ||
  (match app.role with
   | none => false
   | some role => includes (lower role) search)

/-- The second filter of `filteredApplications` (source line 29). -/
def matchesStatus (statusFilter : String) (app : Application) : Bool :=
  decide (statusFilter = "All") || decide (app.status = some statusFilter)

/-- The value `filteredApplications` of the Tracker (source lines 20-35).  The
final `.sort` by date is the parameter `sortByDate`; the built-in `toLowerCase`
is the parameter `lower`. -/
def filteredApplications (sortByDate : List Application → List Application)
    (lower : String → String) (applications : List Application)
    (searchTerm statusFilter : String) : List Application :=
  sortByDate
    ((applications.filter (matchesSearch lower searchTerm)).filter (matchesStatus statusFilter))

/-- The class string returned for an unknown status (source line 14). -/
def defaultBadgeClasses : String :=
  "bg-gray-100 text-gray-800 dark:bg-gray-700 dark:text-gray-200"

/-- The switch value `(status || "").toLowerCase()` of `statusBadgeClasses`.
`status || ""` is the empty string for `null`, `undefined` and `""`.  The value
is only compared with ASCII words, for which `toLowerCase` of this file agrees
with the built-in: no other character has a lower-case form with an ASCII
letter in it. -/
def statusKey (status : Text) : String :=
  let s : String :=
    match status with
    | Text.null => ""
    | Text.undefined => ""
    | Text.str s => s
  String.mk (toLowerCase s.data)

/-- The function `statusBadgeClasses` (source lines 1-16). -/
def statusBadgeClasses (status : Text) : String :=
  let key := statusKey status
  if key = "applied" then "bg-blue-100 text-blue-800 dark:bg-blue-900/30 dark:text-blue-400"
  else if key = "oa" then
    "bg-purple-100 text-purple-800 dark:bg-purple-900/30 dark:text-purple-400"
  else if key = "interview" then
    "bg-amber-100 text-amber-800 dark:bg-amber-900/30 dark:text-amber-400"
  else if key = "rejected" then "bg-red-100 text-red-800 dark:bg-red-900/30 dark:text-red-400"
  else if key = "offer" then
    "bg-emerald-100 text-emerald-800 dark:bg-emerald-900/30 dark:text-emerald-400"
  else defaultBadgeClasses

/-! ## Lemmas on lists -/

theorem mem_dedupKeepFirst (k : String) (xs : List String) :
    k ∈ dedupKeepFirst xs ↔ k ∈ xs := by
  induction xs with
  | nil => simp [dedupKeepFirst]
  | cons x xs ih =>
    simp only [dedupKeepFirst, List.mem_cons, List.mem_filter, ih]
    by_cases h : k = x <;> simp [h]

theorem nodup_dedupKeepFirst (xs : List String) : (dedupKeepFirst xs).Nodup := by
  induction xs with
  | nil => simp [dedupKeepFirst]
  | cons x xs ih =>
    simp only [dedupKeepFirst, List.nodup_cons]
    exact ⟨by simp [List.mem_filter], ih.filter _⟩

theorem dedupKeepFirst_filter (p : String → Bool) (xs : List String) :
    dedupKeepFirst (xs.filter p) = (dedupKeepFirst xs).filter p := by
  induction xs with
  | nil => simp [dedupKeepFirst]
  | cons x xs ih =>
    by_cases h : p x = true
    · simp only [List.filter_cons_of_pos h, dedupKeepFirst, ih, List.filter_filter]
      congr 1
      apply List.filter_congr
      intro y _
      exact Bool.and_comm _ _
    · simp only [List.filter_cons_of_neg h, dedupKeepFirst, ih, List.filter_filter]
      apply List.filter_congr
      intro y _
      by_cases hy : y = x
      · subst hy; simp [h]
      · simp [hy]

theorem foldl_setToArray (acc xs : List String) :
    xs.foldl (fun acc x => if acc.contains x then acc else acc ++ [x]) acc
      = acc ++ dedupKeepFirst (xs.filter fun y => !(acc.contains y)) := by
  induction xs generalizing acc with
  | nil => simp [dedupKeepFirst]
  | cons x xs ih =>
    rw [List.foldl_cons, ih]
    by_cases h : acc.contains x = true
    · rw [if_pos h, List.filter_cons]
      simp only [h, Bool.not_true, Bool.false_eq_true, if_false]
    · rw [if_neg h, List.filter_cons]
      have h2 : acc.contains x = false := by simpa using h
      simp only [h2, Bool.not_false, if_true, dedupKeepFirst, List.append_assoc,
        List.singleton_append]
      congr 2
      rw [← dedupKeepFirst_filter, List.filter_filter]
      congr 1
      apply List.filter_congr
      intro y _
      by_cases hy : y = x
      · subst hy; simp
      · simp [hy]

theorem setToArray_eq (xs : List String) : setToArray xs = dedupKeepFirst xs := by
  unfold setToArray
  rw [foldl_setToArray]
  simp

theorem mem_setToArray (k : String) (xs : List String) : k ∈ setToArray xs ↔ k ∈ xs := by
  rw [setToArray_eq, mem_dedupKeepFirst]

theorem length_dedupKeepFirst (xs : List String) :
    (dedupKeepFirst xs).length = xs.toFinset.card := by
  rw [← List.toFinset_card_of_nodup (nodup_dedupKeepFirst xs)]
  congr 1
  ext k
  simp [mem_dedupKeepFirst]

/-! ## Lemmas on the double-precision model -/

theorem log2Fuel_spec (fuel n : Nat) (hn : 0 < n) (hf : n ≤ fuel) :
    2 ^ log2Fuel fuel n ≤ n ∧ n < 2 ^ (log2Fuel fuel n + 1) := by
  induction fuel generalizing n with
  | zero => omega
  | succ fuel ih =>
    unfold log2Fuel
    by_cases h : 2 ≤ n
    · rw [if_pos h]
      have h1 := ih (n / 2) (by omega) (by omega)
      rw [pow_succ, pow_succ (n := log2Fuel fuel (n / 2) + 1)]
      omega
    · rw [if_neg h]
      simp
      omega

theorem floorLog2_spec (n : Nat) (hn : 0 < n) :
    2 ^ floorLog2 n ≤ n ∧ n < 2 ^ (floorLog2 n + 1) :=
  log2Fuel_spec n n hn (le_refl n)

theorem floorLog2_le_add (a b k : Nat) (ha : 0 < a) (hb : 0 < b) (h : a ≤ 2 ^ k * b) :
    floorLog2 a ≤ floorLog2 b + k := by
  have h1 := (floorLog2_spec a ha).1
  have h2 := (floorLog2_spec b hb).2
  have h3 : 2 ^ floorLog2 a < 2 ^ (k + (floorLog2 b + 1)) := by
    rw [pow_add]
    calc 2 ^ floorLog2 a ≤ 2 ^ k * b := le_trans h1 h
      _ < 2 ^ k * 2 ^ (floorLog2 b + 1) := Nat.mul_lt_mul_of_pos_left h2 (by positivity)
  have h4 := (Nat.pow_lt_pow_iff_right (by norm_num : 1 < 2)).1 h3
  omega

theorem roundHalfEven_le (a b n : Nat) (hb : 0 < b) (h : a ≤ n * b) :
    roundHalfEven a b ≤ n := by
  have hq : a / b ≤ n := Nat.div_le_of_le_mul (by rw [Nat.mul_comm]; exact h)
  have hdm := Nat.div_add_mod a b
  unfold roundHalfEven
  simp only
  by_cases hlt : a / b < n
  · split_ifs <;> omega
  · have heq : a / b = n := by omega
    have hr : a % b = 0 := by
      rw [heq, Nat.mul_comm] at hdm
      omega
    rw [if_pos (by omega)]
    omega

theorem toDouble_den_pos (a b : Nat) : 0 < (toDouble a b).den := by
  unfold toDouble
  split_ifs <;> simp

theorem toDouble_le (a b k n : Nat) (hb : 0 < b) (hk : k ≤ 52) (hn : n ≤ 2 ^ k)
    (h : a ≤ n * b) : (toDouble a b).num ≤ n * (toDouble a b).den := by
  unfold toDouble
  by_cases ha : a = 0
  · simp [ha]
  · rw [if_neg ha]
    simp only
    have hlog : floorLog2 a ≤ floorLog2 b + k :=
      floorLog2_le_add a b k (by omega) hb (le_trans h (Nat.mul_le_mul_right b hn))
    have hup : ∀ c : Nat, 52 ≤ c → floorLog2 a - (floorLog2 b + c) = 0 := by
      intro c hc; omega
    have hc : 52 ≤ (if b * 2 ^ floorLog2 a ≤ a * 2 ^ floorLog2 b then 52 else 53) := by
      split_ifs <;> omega
    rw [hup _ hc]
    simp only [pow_zero, Nat.mul_one]
    apply roundHalfEven_le _ _ _ hb
    calc a * 2 ^ _ ≤ n * b * 2 ^ _ := Nat.mul_le_mul_right _ h
      _ = n * 2 ^ _ * b := by ring

theorem mathRound_le (x : Dbl) (n : Nat) (hd : 0 < x.den) (h : x.num ≤ n * x.den) :
    mathRound x ≤ n := by
  unfold mathRound
  have : (2 * x.num + x.den) / (2 * x.den) < n + 1 := by
    rw [Nat.div_lt_iff_lt_mul (by omega)]
    nlinarith
  omega

theorem percentage_le (m n : Nat) (hn : 0 < n) (h : m ≤ n) :
    ∃ s, percentage m n = some s ∧ s ≤ 100 := by
  unfold percentage Dbl.ofDiv
  rw [if_neg (by omega)]
  refine ⟨_, rfl, ?_⟩
  have h1 : (toDouble m n).num ≤ 1 * (toDouble m n).den :=
    toDouble_le m n 0 1 hn (by omega) (by norm_num) (by omega)
  have hd := toDouble_den_pos m n
  apply mathRound_le _ _ (toDouble_den_pos _ _)
  apply toDouble_le _ _ 7 100 hd (by omega) (by norm_num)
  omega

theorem percentage_zero (n : Nat) (hn : 0 < n) : percentage 0 n = some 0 := by
  unfold percentage Dbl.ofDiv
  rw [if_neg (by omega)]
  simp [Dbl.mulNat, toDouble, mathRound]

/-! ## Lemmas on the scorer -/

theorem matchKeywords_score (R J : List String) :
    (matchKeywords R J).score =
      if 0 < J.length then percentage (J.countP fun k => R.contains k) J.length
      else some 0 := by
  simp only [matchKeywords, List.countP_eq_length_filter]

theorem matchKeywords_matched (R J : List String) :
    (matchKeywords R J).matchedKeywords
      = dedupKeepFirst (J.filter fun k => R.contains k) := by
  simp only [matchKeywords, setToArray_eq]

theorem matchKeywords_missing (R J : List String) :
    (matchKeywords R J).missingKeywords
      = (dedupKeepFirst (J.filter fun k => !(R.contains k))).take 15 := by
  simp only [matchKeywords, setToArray_eq]

theorem mem_matched (R J : List String) (k : String) :
    k ∈ (matchKeywords R J).matchedKeywords ↔ k ∈ J ∧ k ∈ R := by
  rw [matchKeywords_matched, mem_dedupKeepFirst]
  simp [List.mem_filter]

theorem mem_missing (R J : List String) (k : String)
    (h : k ∈ (matchKeywords R J).missingKeywords) : k ∈ J ∧ k ∉ R := by
  rw [matchKeywords_missing] at h
  have h1 := List.mem_of_mem_take h
  rw [mem_dedupKeepFirst] at h1
  simpa [List.mem_filter] using h1

theorem matchKeywords_score_le (R J : List String) :
    ∃ s, (matchKeywords R J).score = some s ∧ s ≤ 100 := by
  rw [matchKeywords_score]
  by_cases h : 0 < J.length
  · rw [if_pos h]
    exact percentage_le _ _ h (List.countP_le_length _)
  · rw [if_neg h]
    exact ⟨0, rfl, by omega⟩

theorem matchKeywords_nil_left (J : List String) :
    matchKeywords [] J = ⟨some 0, [], (dedupKeepFirst J).take 15⟩ := by
  have hs : (matchKeywords [] J).score = some 0 := by
    rw [matchKeywords_score]
    by_cases h : 0 < J.length
    · rw [if_pos h]
      simp [percentage_zero _ h]
    · rw [if_neg h]
  have hm : (matchKeywords [] J).matchedKeywords = [] := by
    rw [matchKeywords_matched]; simp [dedupKeepFirst]
  have hx : (matchKeywords [] J).missingKeywords = (dedupKeepFirst J).take 15 := by
    rw [matchKeywords_missing]; simp
  cases hr : matchKeywords [] J with
  | mk s m x =>
    rw [hr] at hs hm hx
    simp only at hs hm hx
    rw [hs, hm, hx]

/-! ## The claims -/

/-- C1 (the code departs from the claim): the job description `fortyKeywords`
has 40 keywords, 23 of which occur in the resume `aa`; the exact percentage
is 57.5, which rounds to 58, but `calculateMatchScore` returns the score 57,
because the double nearest to 23/40, multiplied by 100, is just below 57.5. -/
theorem score_below_rounded_percentage :
    (extractKeywords (Text.str fortyKeywords)).length = 40 ∧
    (extractKeywords (Text.str fortyKeywords)).countP
        (fun k => (extractKeywords (Text.str "aa")).contains k) = 23 ∧
    (calculateMatchScore (Text.str "aa") (Text.str fortyKeywords)).score = some 57 ∧
    roundHalfUp (100 * 23) 40 = 58 := by
  decide

/-- C2: the score returned by `calculateMatchScore` is a natural number (not
`NaN`) between 0 and 100. -/
theorem score_between_0_and_100 (resumeText jobDescription : Text) :
    ∃ s : Nat, (calculateMatchScore resumeText jobDescription).score = some s ∧
      0 ≤ s ∧ s ≤ 100 := by
  obtain ⟨s, hs, hle⟩ :=
    matchKeywords_score_le (extractKeywords resumeText) (extractKeywords jobDescription)
  exact ⟨s, hs, Nat.zero_le s, hle⟩

/-- C3: the lists `matchedKeywords` and `missingKeywords` returned by
`calculateMatchScore` have no element in common. -/
theorem matched_missing_disjoint (resumeText jobDescription : Text) :
    List.Disjoint (calculateMatchScore resumeText jobDescription).matchedKeywords
      (calculateMatchScore resumeText jobDescription).missingKeywords := by
  intro k hm hx
  exact (mem_missing _ _ k hx).2 ((mem_matched _ _ k).1 hm).2

/-- C4 (as stated, refuted): with an empty resume and a job description of 16
distinct keywords, the sixteenth keyword is a target keyword that is neither in
`matchedKeywords` nor in `missingKeywords`, so the union is not the set of
distinct target keywords. -/
theorem union_misses_sixteenth_keyword :
    ¬ (∀ k : String,
        (k ∈ (calculateMatchScore (Text.str "") (Text.str sixteenKeywords)).matchedKeywords ∨
         k ∈ (calculateMatchScore (Text.str "") (Text.str sixteenKeywords)).missingKeywords)
        ↔ k ∈ extractKeywords (Text.str sixteenKeywords)) := by
  intro h
  have h16 := (h "k16").2 (by decide)
  revert h16
  decide

/-- C4 (amended): every element of `matchedKeywords` or `missingKeywords` is a
target keyword, and when at most 15 distinct target keywords are absent from
the candidate, the union of the two lists, as a set, is exactly the set of
target keywords. -/
theorem union_eq_target_keywords (resumeText jobDescription : Text) :
    (∀ k : String,
      k ∈ (calculateMatchScore resumeText jobDescription).matchedKeywords ∨
      k ∈ (calculateMatchScore resumeText jobDescription).missingKeywords →
      k ∈ extractKeywords jobDescription) ∧
    ((dedupKeepFirst ((extractKeywords jobDescription).filter
        fun k => !((extractKeywords resumeText).contains k))).length ≤ 15 →
      ∀ k : String,
        (k ∈ (calculateMatchScore resumeText jobDescription).matchedKeywords ∨
         k ∈ (calculateMatchScore resumeText jobDescription).missingKeywords)
        ↔ k ∈ extractKeywords jobDescription) := by
  have hsub : ∀ k : String,
      k ∈ (calculateMatchScore resumeText jobDescription).matchedKeywords ∨
      k ∈ (calculateMatchScore resumeText jobDescription).missingKeywords →
      k ∈ extractKeywords jobDescription := by
    intro k hk
    rcases hk with hk | hk
    · exact ((mem_matched _ _ k).1 hk).1
    · exact (mem_missing _ _ k hk).1
  refine ⟨hsub, fun hlen k => ⟨hsub k, fun hk => ?_⟩⟩
  by_cases hR : k ∈ extractKeywords resumeText
  · exact Or.inl ((mem_matched _ _ k).2 ⟨hk, hR⟩)
  · right
    unfold calculateMatchScore
    rw [matchKeywords_missing, List.take_of_length_le hlen, mem_dedupKeepFirst]
    simp [List.mem_filter, hk, hR]

/-- C4 (amended), applied to the resume `python` and the job description
`python django`. -/
theorem union_eq_target_keywords_witness :
    (dedupKeepFirst ((extractKeywords (Text.str "python django")).filter
        fun k => !((extractKeywords (Text.str "python")).contains k))).length ≤ 15 ∧
    ∀ k : String,
      (k ∈ (calculateMatchScore (Text.str "python") (Text.str "python django")).matchedKeywords ∨
       k ∈ (calculateMatchScore (Text.str "python") (Text.str "python django")).missingKeywords)
      ↔ k ∈ extractKeywords (Text.str "python django") :=
  ⟨by decide,
   (union_eq_target_keywords (Text.str "python") (Text.str "python django")).2 (by decide)⟩

/-- C5: `matchedKeywords` is the duplicate-free list, in first-occurrence order,
of the target keywords that occur in the candidate keyword sequence: it is the
deduplicated target sequence restricted to the candidate keywords, it has no
duplicates, and a keyword is in it exactly when it occurs in both sequences. -/
theorem matchedKeywords_spec (resumeText jobDescription : Text) :
    (calculateMatchScore resumeText jobDescription).matchedKeywords
      = (dedupKeepFirst (extractKeywords jobDescription)).filter
          (fun k => decide (k ∈ extractKeywords resumeText)) ∧
    (calculateMatchScore resumeText jobDescription).matchedKeywords.Nodup ∧
    ∀ k : String, k ∈ (calculateMatchScore resumeText jobDescription).matchedKeywords
      ↔ k ∈ extractKeywords jobDescription ∧ k ∈ extractKeywords resumeText := by
  refine ⟨?_, ?_, fun k => mem_matched _ _ k⟩
  · unfold calculateMatchScore
    rw [matchKeywords_matched, dedupKeepFirst_filter]
    apply List.filter_congr
    intro k _
    simp
  · unfold calculateMatchScore
    rw [matchKeywords_matched]
    exact nodup_dedupKeepFirst _

/-- C6: `missingKeywords` is the first 15 entries of the duplicate-free list, in
first-occurrence order, of the target keywords that do not occur in the
candidate keyword sequence; it has at most 15 entries, no duplicates, and each
entry is a target keyword absent from the candidate. -/
theorem missingKeywords_spec (resumeText jobDescription : Text) :
    (calculateMatchScore resumeText jobDescription).missingKeywords
      = ((dedupKeepFirst (extractKeywords jobDescription)).filter
          (fun k => decide (k ∉ extractKeywords resumeText))).take 15 ∧
    (calculateMatchScore resumeText jobDescription).missingKeywords.length ≤ 15 ∧
    (calculateMatchScore resumeText jobDescription).missingKeywords.Nodup ∧
    ∀ k : String, k ∈ (calculateMatchScore resumeText jobDescription).missingKeywords →
      k ∈ extractKeywords jobDescription ∧ k ∉ extractKeywords resumeText := by
  have heq : (calculateMatchScore resumeText jobDescription).missingKeywords
      = ((dedupKeepFirst (extractKeywords jobDescription)).filter
          (fun k => decide (k ∉ extractKeywords resumeText))).take 15 := by
    unfold calculateMatchScore
    rw [matchKeywords_missing, dedupKeepFirst_filter]
    congr 1
    apply List.filter_congr
    intro k _
    simp
  refine ⟨heq, ?_, ?_, fun k hk => mem_missing _ _ k hk⟩
  · rw [heq, List.length_take]
    exact Nat.min_le_left _ _
  · rw [heq]
    exact ((nodup_dedupKeepFirst _).filter _).sublist (List.take_sublist _ _)

/-- C7: when the target keyword sequence is empty, `calculateMatchScore` returns
the score 0 (a number: the division by the zero length, whose result would be
`NaN`, is not evaluated) and empty `matchedKeywords` and `missingKeywords`. -/
theorem empty_target_gives_zero (resumeText jobDescription : Text)
    (h : extractKeywords jobDescription = []) :
    calculateMatchScore resumeText jobDescription = ⟨some 0, [], []⟩ := by
  unfold calculateMatchScore
  rw [h]
  rfl

/-- C7, applied to a target made of stop words and one-character tokens only. -/
theorem empty_target_gives_zero_witness :
    extractKeywords (Text.str "The and a x, of 7 !") = [] ∧
    calculateMatchScore (Text.str "Python and React") (Text.str "The and a x, of 7 !")
      = ⟨some 0, [], []⟩ :=
  ⟨by decide,
   empty_target_gives_zero (Text.str "Python and React") (Text.str "The and a x, of 7 !")
     (by decide)⟩

/-- C8: for a target with a non-empty keyword sequence and the empty candidate
text, the score is 0, `matchedKeywords` is empty and `missingKeywords` is the
first 15 entries of the deduplicated target keyword sequence; for the target
`SQL and Java` the missing keywords are `sql`, `java`. -/
theorem empty_candidate_result :
    (∀ jobDescription : Text, extractKeywords jobDescription ≠ [] →
      calculateMatchScore (Text.str "") jobDescription
        = ⟨some 0, [], (dedupKeepFirst (extractKeywords jobDescription)).take 15⟩) ∧
    calculateMatchScore (Text.str "") (Text.str "SQL and Java")
      = ⟨some 0, [], ["sql", "java"]⟩ := by
  refine ⟨fun jobDescription _ => ?_, by decide⟩
  unfold calculateMatchScore
  have h : extractKeywords (Text.str "") = [] := by decide
  rw [h, matchKeywords_nil_left]

/-- C8, applied to the target `SQL, Java and SQL`. -/
theorem empty_candidate_result_witness :
    extractKeywords (Text.str "SQL, Java and SQL") ≠ [] ∧
    calculateMatchScore (Text.str "") (Text.str "SQL, Java and SQL")
      = ⟨some 0, [],
          (dedupKeepFirst (extractKeywords (Text.str "SQL, Java and SQL"))).take 15⟩ :=
  ⟨by decide, empty_candidate_result.1 (Text.str "SQL, Java and SQL") (by decide)⟩

/-- C9: `extractKeywords` returns the empty sequence for the empty string, for
`null` and for `undefined`; an absent text gives the same result as the empty
string in either argument of `calculateMatchScore`; and `calculateMatchScore`
returns a result with a numeric score for every pair of inputs. -/
theorem absent_text_is_empty_document :
    extractKeywords (Text.str "") = [] ∧
    extractKeywords Text.null = [] ∧
    extractKeywords Text.undefined = [] ∧
    (∀ t : Text,
      calculateMatchScore Text.null t = calculateMatchScore (Text.str "") t ∧
      calculateMatchScore Text.undefined t = calculateMatchScore (Text.str "") t ∧
      calculateMatchScore t Text.null = calculateMatchScore t (Text.str "") ∧
      calculateMatchScore t Text.undefined = calculateMatchScore t (Text.str "")) ∧
    (∀ r j : Text, ∃ res : MatchResult, ∃ s : Nat,
      calculateMatchScore r j = res ∧ res.score = some s) := by
  refine ⟨by decide, rfl, rfl, fun t => ⟨rfl, rfl, rfl, rfl⟩, fun r j => ?_⟩
  obtain ⟨s, hs, _⟩ := matchKeywords_score_le (extractKeywords r) (extractKeywords j)
  exact ⟨_, s, rfl, hs⟩

/-- C10: for the candidate "I have strong experience in Python and React" and
the target "Looking for Python, Django, and React experience", the target
keyword sequence is `python, django, react`, and the result has
`matchedKeywords = [python, react]`, `missingKeywords = [django]`, score 67. -/
theorem python_django_react_scenario :
    extractKeywords (Text.str "Looking for Python, Django, and React experience")
      = ["python", "django", "react"] ∧
    calculateMatchScore (Text.str "I have strong experience in Python and React")
        (Text.str "Looking for Python, Django, and React experience")
      = ⟨some 67, ["python", "react"], ["django"]⟩ := by
  decide

/-! ## Lemmas on the tokenizer -/

theorem splitGo_filter_eq (l : List Char) (inRun : Bool) (cur : List Char)
    (h : inRun = true → cur = []) :
    (splitGo inRun cur l).filter (fun w => !w.isEmpty)
      = (List.splitOnP.go isWhiteSpace l cur).filter (fun w => !w.isEmpty) := by
  induction l generalizing inRun cur with
  | nil => simp [splitGo, List.splitOnP.go]
  | cons c cs ih =>
    by_cases hc : isWhiteSpace c = true
    · cases inRun with
      | true =>
        have hcur : cur = [] := h rfl
        subst hcur
        simp [splitGo, List.splitOnP.go, hc, ih true [] (fun _ => rfl)]
      | false =>
        have h1 := ih true [] (fun _ => rfl)
        simp only [splitGo, List.splitOnP.go, hc, if_true, Bool.false_eq_true, if_false,
          cond_true, List.filter_cons, h1]
    · have hc2 : isWhiteSpace c = false := by simpa using hc
      simp only [splitGo, List.splitOnP.go, hc2, Bool.false_eq_true, if_false, cond_false]
      exact ih false (c :: cur) (by simp)

theorem splitWhitespace_filter_eq (l : List Char) :
    (splitWhitespace l).filter (fun w => !w.isEmpty) = wordsOf l :=
  splitGo_filter_eq l false [] (by simp)

theorem keepWord_iff (w : String) :
    keepWord w = true ↔ (2 ≤ w.length ∧ w ∉ stopWords) ∨ w ∈ techTerms := by
  simp [keepWord]

theorem keepWord_mk_nonempty (w : List Char) (h : keepWord (String.mk w) = true) :
    (!w.isEmpty) = true := by
  cases w with
  | nil => exact absurd h (by decide)
  | cons c cs => rfl

theorem filter_keepWord_eq (L : List (List Char)) :
    (L.map String.mk).filter keepWord
      = ((L.filter fun w => !w.isEmpty).map String.mk).filter keepWord := by
  induction L with
  | nil => rfl
  | cons w L ih =>
    simp only [List.map_cons, List.filter_cons]
    cases w with
    | nil =>
      have hk : keepWord (String.mk []) = false := by decide
      simp only [hk, Bool.false_eq_true, if_false, List.isEmpty_nil, Bool.not_true, ih]
    | cons c cs =>
      simp only [List.isEmpty_cons, Bool.not_false, if_true, List.map_cons, List.filter_cons, ih]

theorem extractKeywords_str (s : String) :
    extractKeywords (Text.str s)
      = ((wordsOf (replaceSpecial (toLowerCase s.data))).map String.mk).filter keepWord := by
  unfold extractKeywords
  by_cases h : s.data.isEmpty = true
  · have hs : s.data = [] := by simpa using h
    simp only [h, if_true, hs]
    rfl
  · simp only [h, Bool.false_eq_true, if_false]
    rw [filter_keepWord_eq, splitWhitespace_filter_eq]

theorem techTerms_pass : ∀ t ∈ techTerms, t ∉ stopWords ∧ 2 ≤ t.length := by
  decide

theorem keepWord_sound (k : String) (h : keepWord k = true) :
    k ∉ stopWords ∧ 2 ≤ k.length := by
  rcases (keepWord_iff k).1 h with ⟨h2, hs⟩ | ht
  · exact ⟨hs, h2⟩
  · exact techTerms_pass k ht

theorem mem_extractKeywords_keepWord (text : Text) (k : String)
    (h : k ∈ extractKeywords text) : keepWord k = true := by
  cases text with
  | null => simp [extractKeywords] at h
  | undefined => simp [extractKeywords] at h
  | str s =>
    rw [extractKeywords_str] at h
    exact (List.mem_filter.1 h).2

theorem splitOnP_go_chars (p : Char → Bool) (l : List Char) :
    ∀ acc w : List Char, w ∈ List.splitOnP.go p l acc →
      ∀ c ∈ w, c ∈ acc ∨ (c ∈ l ∧ p c = false) := by
  induction l with
  | nil =>
    intro acc w h
    simp only [List.splitOnP.go, List.mem_singleton] at h
    subst h
    intro c hc
    exact Or.inl (List.mem_reverse.1 hc)
  | cons a t ih =>
    intro acc w h
    by_cases ha : p a = true
    · simp only [List.splitOnP.go, ha, if_true, List.mem_cons] at h
      rcases h with hw | hw
      · subst hw
        intro c hc
        exact Or.inl (List.mem_reverse.1 hc)
      · intro c hc
        rcases ih [] w hw c hc with h1 | h1
        · simp at h1
        · exact Or.inr ⟨List.mem_cons_of_mem _ h1.1, h1.2⟩
    · have ha2 : p a = false := by simpa using ha
      simp only [List.splitOnP.go, ha2, Bool.false_eq_true, if_false] at h
      intro c hc
      rcases ih (a :: acc) w h c hc with h1 | h1
      · rcases List.mem_cons.1 h1 with h2 | h2
        · subst h2
          exact Or.inr ⟨List.mem_cons_self _ _, ha2⟩
        · exact Or.inl h2
      · exact Or.inr ⟨List.mem_cons_of_mem _ h1.1, h1.2⟩

theorem wordsOf_chars (l w : List Char) (h : w ∈ wordsOf l) :
    ∀ c ∈ w, c ∈ l ∧ isWhiteSpace c = false := by
  intro c hc
  have h1 := splitOnP_go_chars isWhiteSpace l [] w (List.mem_filter.1 h).1 c hc
  simpa using h1

theorem isKept_eq (c : Char) : isKept c = (isTokenChar c || isWhiteSpace c) := by
  simp only [isKept, isTokenChar]
  cases isWhiteSpace c <;> simp

theorem replaceSpecial_kept (l : List Char) (c : Char) (h : c ∈ replaceSpecial l) :
    isKept c = true := by
  simp only [replaceSpecial, List.mem_map] at h
  obtain ⟨a, _, ha⟩ := h
  by_cases hk : isKept a = true
  · rw [if_pos hk] at ha
    rw [← ha]; exact hk
  · rw [if_neg hk] at ha
    rw [← ha]; decide

theorem extractKeywords_chars (text : Text) (k : String) (h : k ∈ extractKeywords text) :
    ∀ c ∈ k.data, isTokenChar c = true := by
  cases text with
  | null => simp [extractKeywords] at h
  | undefined => simp [extractKeywords] at h
  | str s =>
    rw [extractKeywords_str] at h
    obtain ⟨w, hw, hk⟩ := List.mem_map.1 (List.mem_filter.1 h).1
    subst hk
    intro c hc
    have h1 := wordsOf_chars _ w hw c hc
    have h2 := replaceSpecial_kept _ c h1.1
    rw [isKept_eq, h1.2, Bool.or_false] at h2
    exact h2

theorem splitOnP_go_swap (p : Char → Bool) (c d : Char) (hc : p c = true) (hd : p d = true)
    (pre post acc : List Char) :
    List.splitOnP.go p (pre ++ c :: post) acc = List.splitOnP.go p (pre ++ d :: post) acc := by
  induction pre generalizing acc with
  | nil => simp [List.splitOnP.go, hc, hd]
  | cons a t ih =>
    show List.splitOnP.go p (a :: (t ++ c :: post)) acc
      = List.splitOnP.go p (a :: (t ++ d :: post)) acc
    simp only [List.splitOnP.go]
    rw [ih, ih]

theorem lowerChar_of_not_wordChar (c : Char) (h : isWordChar c = false) :
    lowerChar c = [c] := by
  simp only [isWordChar, Bool.or_eq_false_iff, Bool.and_eq_false_imp, decide_eq_false_iff_not,
    decide_eq_true_eq] at h
  obtain ⟨⟨⟨_, h1⟩, h2⟩, h3⟩ := h
  unfold lowerChar
  rw [if_neg (fun hh => by have := h1 hh.1; omega), if_neg h2, if_neg h3]

theorem normalise_separator (c : Char) (h : isWordChar c = false) (pre post : List Char) :
    wordsOf (replaceSpecial (toLowerCase (pre ++ c :: post)))
      = wordsOf (replaceSpecial (toLowerCase (pre ++ ' ' :: post))) := by
  have hsp : lowerChar ' ' = [' '] := by decide
  have htok : isTokenChar c = false := by
    simp only [isWordChar, Bool.or_eq_false_iff] at h
    exact h.1.1.1
  simp only [toLowerCase, replaceSpecial, List.flatMap_append, List.flatMap_cons, List.map_append,
    lowerChar_of_not_wordChar c h, hsp, List.singleton_append, List.map_cons]
  have hk : isKept ' ' = true := by decide
  rw [if_pos hk]
  by_cases hw : isWhiteSpace c = true
  · have hkc : isKept c = true := by rw [isKept_eq, hw, Bool.or_true]
    rw [if_pos hkc]
    unfold wordsOf List.splitOnP
    rw [splitOnP_go_swap isWhiteSpace c ' ' hw (by decide)]
  · have hkc : ¬ (isKept c = true) := by
      rw [isKept_eq, htok]; simpa using hw
    rw [if_neg hkc]

theorem lowerChar_whiteSpace (c : Char) (h : isWhiteSpace c = true) : lowerChar c = [c] := by
  simp only [isWhiteSpace, Bool.or_eq_true, Bool.and_eq_true, decide_eq_true_eq] at h
  unfold lowerChar
  rw [if_neg (by omega), if_neg (by omega), if_neg (by omega)]

theorem isTokenChar_not_whiteSpace (c : Char) (h : isTokenChar c = true) :
    isWhiteSpace c = false := by
  simp only [isTokenChar, Bool.or_eq_true, Bool.and_eq_true, decide_eq_true_eq] at h
  rcases h with ((((h | h) | h) | h) | h) | h
  · simp only [isWhiteSpace, Bool.or_eq_false_iff, Bool.and_eq_false_imp,
      decide_eq_false_iff_not, decide_eq_true_eq]
    omega
  · simp only [isWhiteSpace, Bool.or_eq_false_iff, Bool.and_eq_false_imp,
      decide_eq_false_iff_not, decide_eq_true_eq]
    omega
  all_goals (subst h; decide)

theorem replaceSpecial_token (x : List Char) (h : ∀ c ∈ x, isTokenChar c = true) :
    replaceSpecial x = x := by
  induction x with
  | nil => rfl
  | cons a t ih =>
    have ha : isKept a = true := by
      rw [isKept_eq, h a (List.mem_cons_self _ _), Bool.true_or]
    simp only [replaceSpecial, List.map_cons, ha, if_true]
    congr 1
    exact ih (fun c hc => h c (List.mem_cons_of_mem _ hc))

theorem toLowerCase_cons (a : Char) (t : List Char) :
    toLowerCase (a :: t) = lowerChar a ++ toLowerCase t := by
  simp [toLowerCase]

theorem toLowerCase_append (x y : List Char) :
    toLowerCase (x ++ y) = toLowerCase x ++ toLowerCase y := by
  simp [toLowerCase]

theorem replaceSpecial_append (x y : List Char) :
    replaceSpecial (x ++ y) = replaceSpecial x ++ replaceSpecial y := by
  simp [replaceSpecial]

theorem splitOnP_go_append (p : Char → Bool) (rest x : List Char) :
    ∀ acc : List Char, ∃ acc2 : List Char,
      (∀ y, y ∈ List.splitOnP.go p rest acc2 → y ∈ List.splitOnP.go p (x ++ rest) acc) ∧
      ((∀ c ∈ x, p c = false) → acc2 = x.reverse ++ acc) := by
  induction x with
  | nil => intro acc; exact ⟨acc, fun y hy => hy, fun _ => rfl⟩
  | cons a t ih =>
    intro acc
    by_cases ha : p a = true
    · obtain ⟨acc2, h1, _⟩ := ih []
      refine ⟨acc2, fun y hy => ?_, fun hall => ?_⟩
      · simp only [List.cons_append, List.splitOnP.go, ha, if_true]
        exact List.mem_cons_of_mem _ (h1 y hy)
      · have := hall a (List.mem_cons_self _ _)
        rw [ha] at this
        exact absurd this (by decide)
    · have ha2 : p a = false := by simpa using ha
      obtain ⟨acc2, h1, h2⟩ := ih (a :: acc)
      refine ⟨acc2, fun y hy => ?_, fun hall => ?_⟩
      · simp only [List.cons_append, List.splitOnP.go, ha2, Bool.false_eq_true, if_false]
        exact h1 y hy
      · rw [h2 (fun c hc => hall c (List.mem_cons_of_mem _ hc))]
        simp

theorem lower_word_survives (l : List Char) :
    ∀ acc acc2 w : List Char, w ∈ List.splitOnP.go isWhiteSpace l acc →
      (∀ c ∈ toLowerCase w, isTokenChar c = true) →
      ((∀ c ∈ toLowerCase acc.reverse, isTokenChar c = true) →
        acc2.reverse = toLowerCase acc.reverse) →
      toLowerCase w ∈ List.splitOnP.go isWhiteSpace (replaceSpecial (toLowerCase l)) acc2 := by
  induction l with
  | nil =>
    intro acc acc2 w hw htok hrel
    simp only [List.splitOnP.go, List.mem_singleton] at hw
    subst hw
    simp only [toLowerCase, List.flatMap_nil, replaceSpecial, List.map_nil, List.splitOnP.go,
      List.mem_singleton]
    exact (hrel htok).symm
  | cons a t ih =>
    intro acc acc2 w hw htok hrel
    by_cases ha : isWhiteSpace a = true
    · have hk : isKept a = true := by rw [isKept_eq, ha, Bool.or_true]
      have hn : replaceSpecial (toLowerCase (a :: t)) = a :: replaceSpecial (toLowerCase t) := by
        rw [toLowerCase_cons, lowerChar_whiteSpace a ha]
        simp [replaceSpecial, hk]
      rw [hn]
      simp only [List.splitOnP.go, ha, if_true, List.mem_cons] at hw ⊢
      rcases hw with hw | hw
      · subst hw
        exact Or.inl (hrel htok).symm
      · exact Or.inr (ih [] [] w hw htok (fun _ => rfl))
    · have ha2 : isWhiteSpace a = false := by simpa using ha
      simp only [List.splitOnP.go, ha2, Bool.false_eq_true, if_false] at hw
      rw [toLowerCase_cons, replaceSpecial_append]
      obtain ⟨acc3, h1, h2⟩ := splitOnP_go_append isWhiteSpace
        (replaceSpecial (toLowerCase t)) (replaceSpecial (lowerChar a)) acc2
      apply h1
      apply ih (a :: acc) acc3 w hw htok
      intro hall
      rw [List.reverse_cons, toLowerCase_append] at hall ⊢
      have hacc : ∀ c ∈ toLowerCase acc.reverse, isTokenChar c = true :=
        fun c hc => hall c (List.mem_append_left _ hc)
      have hlow : ∀ c ∈ lowerChar a, isTokenChar c = true := by
        intro c hc
        apply hall c
        apply List.mem_append_right
        simpa [toLowerCase] using hc
      have hla : toLowerCase [a] = lowerChar a := by simp [toLowerCase]
      rw [hla, ← hrel hacc]
      rw [replaceSpecial_token _ hlow] at h2
      rw [h2 (fun c hc => isTokenChar_not_whiteSpace c (hlow c hc))]
      simp

theorem toLowerCase_ne_nil (w : List Char) (h : w ≠ []) : toLowerCase w ≠ [] := by
  cases w with
  | nil => exact absurd rfl h
  | cons a t =>
    rw [toLowerCase_cons]
    have : lowerChar a ≠ [] := by
      unfold lowerChar
      split_ifs <;> simp
    simp [this]

theorem wordsOf_lower (l w : List Char) (hw : w ∈ wordsOf l)
    (htok : ∀ c ∈ toLowerCase w, isTokenChar c = true) :
    toLowerCase w ∈ wordsOf (replaceSpecial (toLowerCase l)) := by
  obtain ⟨h1, h2⟩ := List.mem_filter.1 hw
  apply List.mem_filter.2
  refine ⟨lower_word_survives l [] [] w h1 htok (fun _ => rfl), ?_⟩
  have hne : w ≠ [] := by
    intro h; subst h; simp at h2
  have := toLowerCase_ne_nil w hne
  cases hh : toLowerCase w with
  | nil => exact absurd hh this
  | cons c cs => rfl

/-! ## Lemmas on the suggestion generator -/

theorem tierMessages_nodup :
    [lowMatchMessage, roomToImproveMessage, goodMatchMessage, excellentMatchMessage].Nodup := by
  decide

theorem getMatchSuggestions_eq (score : Int) (missingKeywords : List String) :
    getMatchSuggestions score missingKeywords
      = tierMessage score ::
          (if missingKeywords = [] then []
           else [keywordMessagePrefix ++ ", ".intercalate (missingKeywords.take 5)]) := by
  unfold getMatchSuggestions tierMessage
  cases missingKeywords with
  | nil => simp only [List.length_nil, lt_irrefl, if_false, if_true]; split_ifs <;> rfl
  | cons k ks =>
    simp only [List.length_cons, Nat.zero_lt_succ, if_true, List.cons_ne_nil, if_false]
    split_ifs <;> rfl

theorem tierMessage_low (score : Int) : tierMessage score = lowMatchMessage ↔ score < 30 := by
  have h := tierMessages_nodup
  simp only [List.nodup_cons, List.mem_cons, List.mem_singleton, not_or, List.not_mem_nil,
    not_false_eq_true, List.nodup_nil, and_true] at h
  unfold tierMessage
  split_ifs with h1 h2 h3
  · simp [h1]
  · simp only [h1, iff_false]; exact fun e => h.1.1 e.symm
  · simp only [h1, iff_false]; exact fun e => h.1.2.1 e.symm
  · simp only [h1, iff_false]; exact fun e => h.1.2.2 e.symm

theorem tierMessage_room (score : Int) :
    tierMessage score = roomToImproveMessage ↔ 30 ≤ score ∧ score < 50 := by
  have h := tierMessages_nodup
  simp only [List.nodup_cons, List.mem_cons, List.mem_singleton, not_or, List.not_mem_nil,
    not_false_eq_true, List.nodup_nil, and_true] at h
  unfold tierMessage
  split_ifs with h1 h2 h3
  · constructor
    · exact fun e => absurd e h.1.1
    · intro hh; omega
  · constructor
    · intro _; omega
    · intro _; rfl
  · constructor
    · exact fun e => absurd e.symm h.2.1.1
    · intro hh; omega
  · constructor
    · exact fun e => absurd e.symm h.2.1.2
    · intro hh; omega

theorem tierMessage_good (score : Int) :
    tierMessage score = goodMatchMessage ↔ 50 ≤ score ∧ score < 70 := by
  have h := tierMessages_nodup
  simp only [List.nodup_cons, List.mem_cons, List.mem_singleton, not_or, List.not_mem_nil,
    not_false_eq_true, List.nodup_nil, and_true] at h
  unfold tierMessage
  split_ifs with h1 h2 h3
  · constructor
    · exact fun e => absurd e h.1.2.1
    · intro hh; omega
  · constructor
    · exact fun e => absurd e h.2.1.1
    · intro hh; omega
  · constructor
    · intro _; omega
    · intro _; rfl
  · constructor
    · exact fun e => absurd e.symm h.2.2
    · intro hh; omega

theorem tierMessage_excellent (score : Int) :
    tierMessage score = excellentMatchMessage ↔ 70 ≤ score := by
  have h := tierMessages_nodup
  simp only [List.nodup_cons, List.mem_cons, List.mem_singleton, not_or, List.not_mem_nil,
    not_false_eq_true, List.nodup_nil, and_true] at h
  unfold tierMessage
  split_ifs with h1 h2 h3
  · constructor
    · exact fun e => absurd e h.1.2.2
    · intro hh; omega
  · constructor
    · exact fun e => absurd e h.2.1.2
    · intro hh; omega
  · constructor
    · exact fun e => absurd e h.2.2
    · intro hh; omega
  · constructor
    · intro _; omega
    · intro _; rfl

theorem isTokenChar_not_upper (c : Char) (h : isTokenChar c = true) :
    ¬ (65 ≤ c.toNat ∧ c.toNat ≤ 90) := by
  simp only [isTokenChar, Bool.or_eq_true, Bool.and_eq_true, decide_eq_true_eq] at h
  rcases h with ((((h | h) | h) | h) | h) | h
  · omega
  · omega
  all_goals (subst h; decide)

theorem matchKeywords_congr (R1 R2 J : List String) (h : ∀ k, k ∈ R1 ↔ k ∈ R2) :
    matchKeywords R1 J = matchKeywords R2 J := by
  have hc : (fun k : String => R1.contains k) = (fun k : String => R2.contains k) := by
    funext k
    have := h k
    by_cases h2 : k ∈ R2 <;> simp_all
  have hn : (fun k : String => !(R1.contains k)) = (fun k : String => !(R2.contains k)) := by
    funext k
    exact congrArg (fun b => !b) (congrFun hc k)
  unfold matchKeywords
  simp only [hc, hn]

theorem matchKeywords_eq_bySet (R J : List String) :
    matchKeywords R J = matchKeywordsBySet R.toFinset J := by
  have hc : (fun k : String => R.contains k) = (fun k : String => decide (k ∈ R.toFinset)) := by
    funext k
    simp
  have hn : (fun k : String => !(R.contains k))
      = (fun k : String => !decide (k ∈ R.toFinset)) := by
    funext k
    exact congrArg (fun b => !b) (congrFun hc k)
  unfold matchKeywords matchKeywordsBySet
  simp only [hc, hn]

/-! ## The claims on the tokenizer and the suggestion generator -/

/-- C11: for every text, `extractKeywords` returns the whitespace-delimited words
of the normalised text (lower-cased, disallowed characters replaced by a space)
that satisfy (length at least 2 and not a stop word) or (technical term), in
their order and with duplicates; `python java python` gives
`[python, java, python]`. -/
theorem extractKeywords_filters_words :
    (∀ s : String, extractKeywords (Text.str s)
      = ((wordsOf (replaceSpecial (toLowerCase s.data))).map String.mk).filter
          (fun w => decide ((2 ≤ w.length ∧ w ∉ stopWords) ∨ w ∈ techTerms))) ∧
    extractKeywords (Text.str "python java python") = ["python", "java", "python"] := by
  refine ⟨fun s => ?_, by decide⟩
  rw [extractKeywords_str]
  apply List.filter_congr
  intro w _
  by_cases h : keepWord w = true
  · rw [h]; exact (decide_eq_true ((keepWord_iff w).1 h)).symm
  · have h2 : keepWord w = false := by simpa using h
    rw [h2]
    exact (decide_eq_false (fun hh => h ((keepWord_iff w).2 hh))).symm

/-- C12: `C++ C# Node.js CI-CD` is tokenized to `c++`, `c#`, `node.js`, `ci-cd`;
and every whitespace-delimited word of a text whose lower-case form consists
only of `a-z`, `0-9`, `+`, `#`, `.`, `-`, has length at least 2 and is not a stop
word, is returned as a token equal to its lower-case form. -/
theorem technology_tokens_survive :
    extractKeywords (Text.str "C++ C# Node.js CI-CD") = ["c++", "c#", "node.js", "ci-cd"] ∧
    ∀ (s : String) (w : List Char), w ∈ wordsOf s.data →
      (∀ c ∈ toLowerCase w, isTokenChar c = true) →
      2 ≤ (toLowerCase w).length →
      String.mk (toLowerCase w) ∉ stopWords →
      String.mk (toLowerCase w) ∈ extractKeywords (Text.str s) := by
  refine ⟨by decide, fun s w hw htok hlen hstop => ?_⟩
  rw [extractKeywords_str]
  apply List.mem_filter.2
  refine ⟨List.mem_map.2 ⟨toLowerCase w, wordsOf_lower s.data w hw htok, rfl⟩, ?_⟩
  exact (keepWord_iff _).2 (Or.inl ⟨hlen, hstop⟩)

/-- C12, applied to the word `Node.js` of the text `I use Node.js daily`. -/
theorem technology_tokens_survive_witness :
    "Node.js".data ∈ wordsOf "I use Node.js daily".data ∧
    "node.js" ∈ extractKeywords (Text.str "I use Node.js daily") :=
  ⟨by decide,
   technology_tokens_survive.2 "I use Node.js daily" "Node.js".data
     (by decide) (by decide) (by decide) (by decide)⟩

/-- C13: no token returned by `extractKeywords` is a stop word and every token
has at least 2 characters; the same holds of every entry of `matchedKeywords`
and of `missingKeywords`. -/
theorem keywords_exclude_stop_words :
    (∀ (text : Text) (k : String), k ∈ extractKeywords text →
      k ∉ stopWords ∧ 2 ≤ k.length) ∧
    (∀ (resumeText jobDescription : Text) (k : String),
      k ∈ (calculateMatchScore resumeText jobDescription).matchedKeywords ∨
      k ∈ (calculateMatchScore resumeText jobDescription).missingKeywords →
      k ∉ stopWords ∧ 2 ≤ k.length) := by
  have h1 : ∀ (text : Text) (k : String), k ∈ extractKeywords text →
      k ∉ stopWords ∧ 2 ≤ k.length :=
    fun text k hk => keepWord_sound k (mem_extractKeywords_keepWord text k hk)
  refine ⟨h1, fun r j k hk => ?_⟩
  rcases hk with hk | hk
  · exact h1 j k ((mem_matched _ _ k).1 hk).1
  · exact h1 j k (mem_missing _ _ k hk).1

/-- C13, applied to the token `react` of the text `I have the React skills`. -/
theorem keywords_exclude_stop_words_witness :
    "react" ∈ extractKeywords (Text.str "I have the React skills") ∧
    "react" ∉ stopWords ∧ 2 ≤ "react".length :=
  ⟨by decide,
   keywords_exclude_stop_words.1 (Text.str "I have the React skills") "react" (by decide)⟩

/-- C14 (as stated, refuted): the Kelvin sign U+212A is neither one of
`a-z 0-9 + # . -` nor an upper-case letter `A-Z`, yet it does not separate
tokens: `toLowerCase` turns it into `k`, so `a`, Kelvin sign, `b` is the single
token `akb`, while `a b` has no token at all. -/
theorem kelvin_sign_is_no_separator :
    extractKeywords (Text.str "a\u212Ab") = ["akb"] ∧
    extractKeywords (Text.str "a b") = [] ∧
    ¬ (∀ (pre post : List Char) (c : Char), isTokenChar c = false →
        ¬ (65 ≤ c.toNat ∧ c.toNat ≤ 90) →
        extractKeywords (Text.str (String.mk (pre ++ c :: post)))
          = extractKeywords (Text.str (String.mk (pre ++ ' ' :: post)))) := by
  refine ⟨by decide, by decide, fun h => ?_⟩
  have h1 := h ['a'] ['b'] (Char.ofNat 0x212A) (by decide) (by decide)
  revert h1
  decide

/-- C14 (amended): every character of every token returned by `extractKeywords`
is one of `a-z 0-9 + # . -`, hence neither white space nor an upper-case letter;
and every character of the input other than the letters `A-Z`, `a-z`, the
digits, `+ # . -`, the Kelvin sign U+212A and U+0130 acts as a token separator:
replacing it by a space does not change the result, as for `python,django` and
`python django`. -/
theorem token_characters_and_separators :
    (∀ (text : Text) (k : String), k ∈ extractKeywords text → ∀ c ∈ k.data,
      isTokenChar c = true ∧ isWhiteSpace c = false ∧ ¬ (65 ≤ c.toNat ∧ c.toNat ≤ 90)) ∧
    (∀ (pre post : List Char) (c : Char), isWordChar c = false →
      extractKeywords (Text.str (String.mk (pre ++ c :: post)))
        = extractKeywords (Text.str (String.mk (pre ++ ' ' :: post)))) ∧
    extractKeywords (Text.str "python,django") = extractKeywords (Text.str "python django") := by
  refine ⟨fun text k hk c hc => ?_, fun pre post c hc => ?_, by decide⟩
  · have h := extractKeywords_chars text k hk c hc
    exact ⟨h, isTokenChar_not_whiteSpace c h, isTokenChar_not_upper c h⟩
  · rw [extractKeywords_str, extractKeywords_str]
    simp only []
    rw [normalise_separator c hc]

/-- C14 (amended), applied to the token `django` and to the comma of
`python,django`. -/
theorem token_characters_and_separators_witness :
    "django" ∈ extractKeywords (Text.str "Python,Django") ∧
    (∀ c ∈ "django".data,
      isTokenChar c = true ∧ isWhiteSpace c = false ∧ ¬ (65 ≤ c.toNat ∧ c.toNat ≤ 90)) ∧
    isWordChar ',' = false ∧
    extractKeywords (Text.str (String.mk ("python".data ++ ',' :: "django".data)))
      = extractKeywords (Text.str (String.mk ("python".data ++ ' ' :: "django".data))) :=
  ⟨by decide,
   token_characters_and_separators.1 (Text.str "Python,Django") "django" (by decide),
   by decide,
   token_characters_and_separators.2.1 "python".data "django".data ',' (by decide)⟩

/-- C15: the first string returned by `getMatchSuggestions` is one of the four
tier messages, chosen by the score alone: the low-match message iff
`score < 30`, the room-to-improve message iff `30 ≤ score < 50`, the good-match
message iff `50 ≤ score < 70`, the excellent-match message iff `70 ≤ score`;
and the four messages are pairwise distinct. -/
theorem first_suggestion_by_tier :
    (∀ (score : Int) (missingKeywords : List String),
      ∃ (first : String) (rest : List String),
        getMatchSuggestions score missingKeywords = first :: rest ∧
        first ∈ [lowMatchMessage, roomToImproveMessage, goodMatchMessage,
          excellentMatchMessage] ∧
        (first = lowMatchMessage ↔ score < 30) ∧
        (first = roomToImproveMessage ↔ 30 ≤ score ∧ score < 50) ∧
        (first = goodMatchMessage ↔ 50 ≤ score ∧ score < 70) ∧
        (first = excellentMatchMessage ↔ 70 ≤ score)) ∧
    [lowMatchMessage, roomToImproveMessage, goodMatchMessage, excellentMatchMessage].Nodup := by
  refine ⟨fun score missingKeywords => ?_, tierMessages_nodup⟩
  refine ⟨tierMessage score, _, getMatchSuggestions_eq score missingKeywords, ?_,
    tierMessage_low score, tierMessage_room score, tierMessage_good score,
    tierMessage_excellent score⟩
  unfold tierMessage
  split_ifs <;> simp

/-- C16: `getMatchSuggestions` returns 1 or 2 strings, 2 exactly when the
missing-keyword list is non-empty, and the tier message of the score is first;
`getMatchSuggestions(85, [])` is exactly the excellent-match message. -/
theorem suggestion_count :
    (∀ (score : Int) (missingKeywords : List String),
      ((getMatchSuggestions score missingKeywords).length = 1 ∨
       (getMatchSuggestions score missingKeywords).length = 2) ∧
      ((getMatchSuggestions score missingKeywords).length = 2 ↔ missingKeywords ≠ []) ∧
      (getMatchSuggestions score missingKeywords).head? = some (tierMessage score)) ∧
    getMatchSuggestions 85 [] = [excellentMatchMessage] := by
  refine ⟨fun score missingKeywords => ?_, by decide⟩
  rw [getMatchSuggestions_eq]
  by_cases h : missingKeywords = []
  · simp [h]
  · simp [h]

/-- C17: for a non-empty missing-keyword list the result is the tier message
followed by the fixed prefix and the first `min 5 length` missing keywords
joined by `", "`; keywords after the fifth do not influence it; and
`getMatchSuggestions(25, [kubernetes])` is the low-match message followed by
the prefix and `kubernetes`. -/
theorem keyword_suggestion_message :
    (∀ (score : Int) (missingKeywords : List String), missingKeywords ≠ [] →
      getMatchSuggestions score missingKeywords
        = [tierMessage score,
           keywordMessagePrefix ++ ", ".intercalate (missingKeywords.take 5)] ∧
      (missingKeywords.take 5).length = min 5 missingKeywords.length ∧
      ∀ later : List String, 5 ≤ missingKeywords.length →
        getMatchSuggestions score (missingKeywords ++ later)
          = getMatchSuggestions score missingKeywords) ∧
    getMatchSuggestions 25 ["kubernetes"]
      = [lowMatchMessage, keywordMessagePrefix ++ "kubernetes"] := by
  refine ⟨fun score missingKeywords h => ⟨?_, List.length_take _ _, fun later h5 => ?_⟩,
    by decide⟩
  · rw [getMatchSuggestions_eq, if_neg h]
  · have h2 : missingKeywords ++ later ≠ [] := by simp [h]
    rw [getMatchSuggestions_eq, getMatchSuggestions_eq, if_neg h, if_neg h2,
      List.take_append_of_le_length h5]

/-- C17, applied to the score 55 and six missing keywords. -/
theorem keyword_suggestion_message_witness :
    ["go", "rust", "sql", "aws", "gcp", "java"] ≠ [] ∧
    getMatchSuggestions 55 ["go", "rust", "sql", "aws", "gcp", "java"]
      = [goodMatchMessage,
         "Consider adding these keywords if relevant to your experience: go, rust, sql, aws, gcp"] :=
  ⟨by decide,
   ((keyword_suggestion_message.1 55 ["go", "rust", "sql", "aws", "gcp", "java"]
      (by decide)).1).trans (by decide)⟩

/-- C18: the array-membership scorer equals the scorer that tests membership
in the set of distinct candidate keywords; hence two candidate texts whose
keyword sequences have the same distinct tokens give identical score,
`matchedKeywords` and `missingKeywords` for every target text. -/
theorem set_membership_equivalent :
    (∀ resumeText jobDescription : Text,
      calculateMatchScore resumeText jobDescription
        = matchKeywordsBySet (extractKeywords resumeText).toFinset
            (extractKeywords jobDescription)) ∧
    (∀ candidate1 candidate2 target : Text,
      (∀ k : String, k ∈ extractKeywords candidate1 ↔ k ∈ extractKeywords candidate2) →
      calculateMatchScore candidate1 target = calculateMatchScore candidate2 target) := by
  refine ⟨fun r j => matchKeywords_eq_bySet _ _, fun c1 c2 t h => ?_⟩
  exact matchKeywords_congr _ _ _ h

/-- C18, applied to two candidates with the keywords `python`, `react` in
different order and multiplicity. -/
theorem set_membership_equivalent_witness :
    (∀ k : String, k ∈ extractKeywords (Text.str "Python React Python")
      ↔ k ∈ extractKeywords (Text.str "react, python")) ∧
    calculateMatchScore (Text.str "Python React Python") (Text.str "python django")
      = calculateMatchScore (Text.str "react, python") (Text.str "python django") := by
  have h1 : extractKeywords (Text.str "Python React Python") = ["python", "react", "python"] := by
    decide
  have h2 : extractKeywords (Text.str "react, python") = ["react", "python"] := by decide
  have h : ∀ k : String, k ∈ extractKeywords (Text.str "Python React Python")
      ↔ k ∈ extractKeywords (Text.str "react, python") := by
    intro k
    rw [h1, h2]
    simp only [List.mem_cons, List.mem_singleton, List.not_mem_nil, or_false]
    tauto
  exact ⟨h, set_membership_equivalent.2 _ _ _ h⟩

/-- C20: for the candidate `python` and the target `python python django` the
score is 67 with `matchedKeywords = [python]` and `missingKeywords = [django]`,
whereas the two reported lists alone give `round(100 * 1 / 2) = 50`; so there
are inputs whose score differs from the percentage of the reported lists. -/
theorem score_weighted_by_repetition :
    calculateMatchScore (Text.str "python") (Text.str "python python django")
      = ⟨some 67, ["python"], ["django"]⟩ ∧
    roundHalfUp (100 * ["python"].length) (["python"].length + ["django"].length) = 50 ∧
    ∃ candidate target : Text,
      (calculateMatchScore candidate target).score ≠
        some (roundHalfUp
          (100 * (calculateMatchScore candidate target).matchedKeywords.length)
          ((calculateMatchScore candidate target).matchedKeywords.length +
           (calculateMatchScore candidate target).missingKeywords.length)) := by
  refine ⟨by decide, by decide, Text.str "python", Text.str "python python django", ?_⟩
  decide

/-! ## Monotonicity of the double-precision model -/

theorem roundHalfEven_ge (a b n : Nat) (hb : 0 < b) (h : n * b ≤ a) :
    n ≤ roundHalfEven a b := by
  have hq : n ≤ a / b := (Nat.le_div_iff_mul_le hb).2 h
  unfold roundHalfEven
  simp only
  split_ifs <;> omega

theorem roundHalfEven_spec (a b : Nat) (hb : 0 < b) :
    2 * (roundHalfEven a b * b) ≤ 2 * a + b ∧
    2 * a ≤ 2 * (roundHalfEven a b * b) + b ∧
    (2 * a + b = 2 * (roundHalfEven a b * b) → roundHalfEven a b % 2 = 0) ∧
    (2 * a = 2 * (roundHalfEven a b * b) + b → roundHalfEven a b % 2 = 0) := by
  have hdm : a / b * b + a % b = a := Nat.div_add_mod' a b
  have hr : a % b < b := Nat.mod_lt a hb
  unfold roundHalfEven
  simp only
  generalize a / b = q at hdm ⊢
  generalize a % b = r at hdm hr ⊢
  have hs : (q + 1) * b = q * b + b := by ring
  split_ifs with h1 h2 h3
  · generalize q * b = P at hdm hs ⊢
    refine ⟨by omega, by omega, fun h => by omega, fun h => by omega⟩
  · rw [hs]
    generalize q * b = P at hdm hs ⊢
    refine ⟨by omega, by omega, fun h => by omega, fun h => by omega⟩
  · generalize q * b = P at hdm hs ⊢
    refine ⟨by omega, by omega, fun h => by omega, fun _ => h3⟩
  · rw [hs]
    generalize q * b = P at hdm hs ⊢
    refine ⟨by omega, by omega, fun _ => by omega, fun h => by omega⟩

theorem roundHalfEven_mono (a b c d : Nat) (hb : 0 < b) (hd : 0 < d)
    (h : a * d ≤ c * b) : roundHalfEven a b ≤ roundHalfEven c d := by
  obtain ⟨h1, _, h3, _⟩ := roundHalfEven_spec a b hb
  obtain ⟨_, g2, _, g4⟩ := roundHalfEven_spec c d hd
  generalize roundHalfEven a b = R at h1 h3 ⊢
  generalize roundHalfEven c d = S at g2 g4 ⊢
  by_contra hlt
  have hR : S + 1 ≤ R := by omega
  have hbd : 0 < b * d := Nat.mul_pos hb hd
  have e1 : 2 * (R * b) * d ≤ (2 * a + b) * d := Nat.mul_le_mul_right d h1
  have e2 : 2 * c * b ≤ (2 * (S * d) + d) * b := Nat.mul_le_mul_right b g2
  have e3 : (S + 1) * (b * d) ≤ R * (b * d) := Nat.mul_le_mul_right _ hR
  have r1 : 2 * (R * b) * d = 2 * (R * (b * d)) := by ring
  have r2 : (2 * a + b) * d = 2 * (a * d) + b * d := by ring
  have r3 : 2 * c * b = 2 * (c * b) := by ring
  have r4 : (2 * (S * d) + d) * b = 2 * (S * (b * d)) + b * d := by ring
  have r5 : (S + 1) * (b * d) = S * (b * d) + b * d := by ring
  rw [r1, r2] at e1
  rw [r3, r4] at e2
  rw [r5] at e3
  generalize hX : b * d = X at *
  generalize hA : a * d = A at *
  generalize hC : c * b = C at *
  generalize hRX : R * X = RX at *
  generalize hSX : S * X = SX at *
  have q1 : 2 * A + X = 2 * RX := by omega
  have q2 : 2 * C = 2 * SX + X := by omega
  have q3 : RX = SX + X := by omega
  subst hX hA hC hRX hSX
  have t1 : 2 * a + b = 2 * (R * b) := by
    apply Nat.eq_of_mul_eq_mul_right hd
    rw [r2, q1]; ring
  have t2 : 2 * c = 2 * (S * d) + d := by
    apply Nat.eq_of_mul_eq_mul_right hb
    rw [r3, q2]; ring
  have t3 : R = S + 1 := by
    apply Nat.eq_of_mul_eq_mul_right hbd
    rw [q3]; ring
  have p1 := h3 t1
  have p2 := g4 t2
  omega

theorem toDouble_small (a b : Nat) (ha : 0 < a) (hb : 0 < b) (hs : a ≤ 2 ^ 52 * b) :
    ∃ k : Nat, toDouble a b = ⟨roundHalfEven (a * 2 ^ k) b, 2 ^ k⟩ ∧
      2 ^ 52 * b ≤ a * 2 ^ k ∧ a * 2 ^ k < 2 ^ 53 * b := by
  have hla := floorLog2_spec a ha
  have hlb := floorLog2_spec b hb
  have hlog : floorLog2 a ≤ floorLog2 b + 52 := floorLog2_le_add a b 52 ha hb hs
  have hpla : 0 < 2 ^ floorLog2 a := by positivity
  unfold toDouble
  rw [if_neg (by omega)]
  simp only
  by_cases hc : b * 2 ^ floorLog2 a ≤ a * 2 ^ floorLog2 b
  · rw [if_pos hc]
    have hup : floorLog2 a - (floorLog2 b + 52) = 0 := by omega
    rw [hup]
    simp only [pow_zero, Nat.mul_one]
    refine ⟨floorLog2 b + 52 - floorLog2 a, rfl, ?_, ?_⟩
    · have hk : floorLog2 a + (floorLog2 b + 52 - floorLog2 a) = floorLog2 b + 52 := by omega
      apply Nat.le_of_mul_le_mul_right _ hpla
      calc 2 ^ 52 * b * 2 ^ floorLog2 a = 2 ^ 52 * (b * 2 ^ floorLog2 a) := by ring
        _ ≤ 2 ^ 52 * (a * 2 ^ floorLog2 b) := Nat.mul_le_mul_left _ hc
        _ = a * 2 ^ (floorLog2 b + 52) := by rw [pow_add]; ring
        _ = a * 2 ^ (floorLog2 a + (floorLog2 b + 52 - floorLog2 a)) := by rw [hk]
        _ = a * 2 ^ (floorLog2 b + 52 - floorLog2 a) * 2 ^ floorLog2 a := by
          rw [pow_add]; ring
    · have hk : floorLog2 a + 1 + (floorLog2 b + 52 - floorLog2 a) = floorLog2 b + 53 := by
        omega
      calc a * 2 ^ (floorLog2 b + 52 - floorLog2 a)
          < 2 ^ (floorLog2 a + 1) * 2 ^ (floorLog2 b + 52 - floorLog2 a) :=
            Nat.mul_lt_mul_of_pos_right hla.2 (by positivity)
        _ = 2 ^ (floorLog2 b + 53) := by rw [← pow_add, hk]
        _ = 2 ^ 53 * 2 ^ floorLog2 b := by rw [pow_add]; ring
        _ ≤ 2 ^ 53 * b := Nat.mul_le_mul_left _ hlb.1
  · rw [if_neg hc]
    have hc2 : a * 2 ^ floorLog2 b < b * 2 ^ floorLog2 a := by omega
    have hup : floorLog2 a - (floorLog2 b + 53) = 0 := by omega
    rw [hup]
    simp only [pow_zero, Nat.mul_one]
    refine ⟨floorLog2 b + 53 - floorLog2 a, rfl, ?_, ?_⟩
    · have hk : floorLog2 a + (floorLog2 b + 53 - floorLog2 a) = floorLog2 b + 1 + 52 := by
        omega
      calc 2 ^ 52 * b ≤ 2 ^ 52 * 2 ^ (floorLog2 b + 1) := Nat.mul_le_mul_left _ (le_of_lt hlb.2)
        _ = 2 ^ (floorLog2 b + 1 + 52) := by rw [pow_add (n := 52)]; ring
        _ = 2 ^ floorLog2 a * 2 ^ (floorLog2 b + 53 - floorLog2 a) := by rw [← pow_add, hk]
        _ ≤ a * 2 ^ (floorLog2 b + 53 - floorLog2 a) := Nat.mul_le_mul_right _ hla.1
    · have hk : floorLog2 a + (floorLog2 b + 53 - floorLog2 a) = floorLog2 b + 53 := by omega
      apply Nat.lt_of_mul_lt_mul_right (a := 2 ^ floorLog2 a)
      calc a * 2 ^ (floorLog2 b + 53 - floorLog2 a) * 2 ^ floorLog2 a
          = a * 2 ^ (floorLog2 a + (floorLog2 b + 53 - floorLog2 a)) := by
            rw [pow_add]; ring
        _ = a * 2 ^ floorLog2 b * 2 ^ 53 := by rw [hk, pow_add]; ring
        _ < b * 2 ^ floorLog2 a * 2 ^ 53 := Nat.mul_lt_mul_of_pos_right hc2 (by positivity)
        _ = 2 ^ 53 * b * 2 ^ floorLog2 a := by ring

/-- The order of two doubles, as fractions. -/
theorem toDouble_mono (a b c d : Nat) (hb : 0 < b) (hd : 0 < d)
    (hab : a ≤ 2 ^ 52 * b) (hcd : c ≤ 2 ^ 52 * d) (h : a * d ≤ c * b) :
    (toDouble a b).num * (toDouble c d).den ≤ (toDouble c d).num * (toDouble a b).den := by
  by_cases ha : a = 0
  · subst ha
    simp [toDouble]
  have hc : 0 < c := by
    by_contra h0
    have : c = 0 := by omega
    subst this
    have h1 : a * d = 0 := by omega
    rcases Nat.mul_eq_zero.1 h1 with h2 | h2 <;> omega
  obtain ⟨k, hk, hk1, hk2⟩ := toDouble_small a b (by omega) hb hab
  obtain ⟨j, hj, hj1, hj2⟩ := toDouble_small c d hc hd hcd
  rw [hk, hj]
  simp only
  have hbd : 0 < b * d := Nat.mul_pos hb hd
  -- the larger value has the smaller scale
  have hjk : j ≤ k := by
    by_contra hlt
    have hkj : k + 1 ≤ j := by omega
    have p1 : 2 ^ (k + 1) ≤ 2 ^ j := Nat.pow_le_pow_right (by norm_num) hkj
    have : 2 ^ 53 * (b * d) < 2 ^ 53 * (b * d) :=
      calc 2 ^ 53 * (b * d) = 2 * (2 ^ 52 * b) * d := by ring
        _ ≤ 2 * (a * 2 ^ k) * d := by
          apply Nat.mul_le_mul_right
          exact Nat.mul_le_mul_left _ hk1
        _ = a * d * 2 ^ (k + 1) := by rw [pow_succ]; ring
        _ ≤ c * b * 2 ^ (k + 1) := Nat.mul_le_mul_right _ h
        _ ≤ c * b * 2 ^ j := Nat.mul_le_mul_left _ p1
        _ = c * 2 ^ j * b := by ring
        _ < 2 ^ 53 * d * b := Nat.mul_lt_mul_of_pos_right hj2 hb
        _ = 2 ^ 53 * (b * d) := by ring
    exact absurd this (lt_irrefl _)
  rcases Nat.eq_or_lt_of_le hjk with hjk2 | hjk2
  · subst hjk2
    apply Nat.mul_le_mul_right
    apply roundHalfEven_mono _ _ _ _ hb hd
    calc a * 2 ^ j * d = a * d * 2 ^ j := by ring
      _ ≤ c * b * 2 ^ j := Nat.mul_le_mul_right _ h
      _ = c * 2 ^ j * b := by ring
  · have hM : roundHalfEven (a * 2 ^ k) b ≤ 2 ^ 53 :=
      roundHalfEven_le _ _ _ hb (le_of_lt hk2)
    have hM2 : 2 ^ 52 ≤ roundHalfEven (c * 2 ^ j) d := roundHalfEven_ge _ _ _ hd hj1
    have p1 : 2 ^ (j + 1) ≤ 2 ^ k := Nat.pow_le_pow_right (by norm_num) hjk2
    calc roundHalfEven (a * 2 ^ k) b * 2 ^ j ≤ 2 ^ 53 * 2 ^ j := Nat.mul_le_mul_right _ hM
      _ = 2 ^ 52 * 2 ^ (j + 1) := by rw [pow_succ]; ring
      _ ≤ 2 ^ 52 * 2 ^ k := Nat.mul_le_mul_left _ p1
      _ ≤ roundHalfEven (c * 2 ^ j) d * 2 ^ k := Nat.mul_le_mul_right _ hM2

theorem div_le_div_cross (a b c d : Nat) (hb : 0 < b) (hd : 0 < d) (h : a * d ≤ c * b) :
    a / b ≤ c / d := by
  apply (Nat.le_div_iff_mul_le hd).2
  apply Nat.le_of_mul_le_mul_right _ hb
  calc a / b * d * b = a / b * b * d := by ring
    _ ≤ a * d := Nat.mul_le_mul_right _ (Nat.div_mul_le_self a b)
    _ ≤ c * b := h

theorem mathRound_mono (x y : Dbl) (hx : 0 < x.den) (hy : 0 < y.den)
    (h : x.num * y.den ≤ y.num * x.den) : mathRound x ≤ mathRound y := by
  unfold mathRound
  apply div_le_div_cross _ _ _ _ (by omega) (by omega)
  have e1 : (2 * x.num + x.den) * (2 * y.den) = 4 * (x.num * y.den) + 2 * (x.den * y.den) := by
    ring
  have e2 : (2 * y.num + y.den) * (2 * x.den) = 4 * (y.num * x.den) + 2 * (x.den * y.den) := by
    ring
  rw [e1, e2]
  omega

theorem toDouble_le_one (m n : Nat) (hn : 0 < n) (h : m ≤ n) :
    (toDouble m n).num ≤ (toDouble m n).den := by
  have := toDouble_le m n 0 1 hn (by omega) (by norm_num) (by omega)
  omega

theorem percentage_eq (m n : Nat) (hn : 0 < n) :
    percentage m n = some (mathRound ((toDouble m n).mulNat 100)) := by
  unfold percentage Dbl.ofDiv
  rw [if_neg (by omega)]
  rfl

theorem percentage_mono (m1 n1 m2 n2 : Nat) (hn1 : 0 < n1) (hn2 : 0 < n2)
    (h1 : m1 ≤ n1) (h2 : m2 ≤ n2) (h : m1 * n2 ≤ m2 * n1) :
    ∃ s1 s2 : Nat, percentage m1 n1 = some s1 ∧ percentage m2 n2 = some s2 ∧ s1 ≤ s2 := by
  refine ⟨_, _, percentage_eq m1 n1 hn1, percentage_eq m2 n2 hn2, ?_⟩
  have hp : (2 : Nat) ^ 52 = 4503599627370496 := by norm_num
  have x1 := toDouble_le_one m1 n1 hn1 h1
  have x2 := toDouble_le_one m2 n2 hn2 h2
  have d1 := toDouble_den_pos m1 n1
  have d2 := toDouble_den_pos m2 n2
  have hx := toDouble_mono m1 n1 m2 n2 hn1 hn2
    (le_trans h1 (Nat.le_mul_of_pos_left _ (by positivity)))
    (le_trans h2 (Nat.le_mul_of_pos_left _ (by positivity))) h
  apply mathRound_mono _ _ (toDouble_den_pos _ _) (toDouble_den_pos _ _)
  apply toDouble_mono _ _ _ _ d1 d2
  · rw [hp]; omega
  · rw [hp]; omega
  · calc (toDouble m1 n1).num * 100 * (toDouble m2 n2).den
        = (toDouble m1 n1).num * (toDouble m2 n2).den * 100 := by ring
      _ ≤ (toDouble m2 n2).num * (toDouble m1 n1).den * 100 := Nat.mul_le_mul_right _ hx
      _ = (toDouble m2 n2).num * 100 * (toDouble m1 n1).den := by ring

theorem percentage_self (n : Nat) (hn : 0 < n) : percentage n n = some 100 := by
  obtain ⟨s1, s2, e1, e2, hle⟩ := percentage_mono 1 1 n n (by omega) hn (le_refl _) (le_refl _)
    (by omega)
  obtain ⟨s, e3, hs⟩ := percentage_le n n hn (le_refl _)
  have h100 : percentage 1 1 = some 100 := by decide
  rw [h100] at e1
  rw [e2] at e3
  have : s1 = 100 := by injection e1 with h; exact h.symm
  have : s2 = s := by injection e3
  rw [e2]
  congr 1
  omega

theorem percentage_eq_100_iff (m n : Nat) (hn : 0 < n) (hN : n ≤ 2 ^ 32) (h : m ≤ n) :
    percentage m n = some 100 ↔ 200 * (n - m) ≤ n := by
  have hp : (2 : Nat) ^ 32 = 4294967296 := by norm_num
  rw [hp] at hN
  constructor
  · intro hs
    by_contra hlt
    obtain ⟨s1, s2, e1, e2, hle⟩ :=
      percentage_mono m n (199 * 4294967296 - 1) (200 * 4294967296) hn (by norm_num) h
        (by norm_num) (by omega)
    have h99 : percentage (199 * 4294967296 - 1) (200 * 4294967296) = some 99 := by decide
    rw [hs] at e1
    rw [h99] at e2
    have : s1 = 100 := by injection e1 with h; exact h.symm
    have : s2 = 99 := by injection e2 with h; exact h.symm
    omega
  · intro hle
    obtain ⟨s1, s2, e1, e2, hle2⟩ :=
      percentage_mono 199 200 m n (by norm_num) hn (by norm_num) h (by omega)
    obtain ⟨s, e3, hs⟩ := percentage_le m n hn h
    have h100 : percentage 199 200 = some 100 := by decide
    rw [h100] at e1
    rw [e2] at e3
    have : s1 = 100 := by injection e1 with h; exact h.symm
    have : s2 = s := by injection e3
    rw [e2]
    congr 1
    omega

theorem roundHalfUp_eq_100_iff (m n : Nat) (hn : 0 < n) (h : m ≤ n) :
    roundHalfUp (100 * m) n = 100 ↔ 200 * (n - m) ≤ n := by
  unfold roundHalfUp
  constructor
  · intro hs
    have h1 : 100 ≤ (2 * (100 * m) + n) / (2 * n) := by omega
    have h2 := (Nat.le_div_iff_mul_le (by omega)).1 h1
    omega
  · intro hle
    apply Nat.le_antisymm
    · have : (2 * (100 * m) + n) / (2 * n) < 101 := by
        rw [Nat.div_lt_iff_lt_mul (by omega)]
        omega
      omega
    · apply (Nat.le_div_iff_mul_le (by omega)).2
      omega

set_option maxRecDepth 100000 in
theorem percentage_thresholds : ∀ k < 100,
    percentage ((2 * k + 1) * 4294967296 - 1) (200 * 4294967296) = some k ∧
    percentage ((2 * k + 1) * 4294967296 + 1) (200 * 4294967296) = some (k + 1) := by
  decide

theorem roundHalfUp_bounds (m n : Nat) (hn : 0 < n) (h : m ≤ n) :
    2 * (roundHalfUp (100 * m) n * n) ≤ 200 * m + n ∧
    200 * m + n < 2 * (roundHalfUp (100 * m) n * n) + 2 * n ∧
    roundHalfUp (100 * m) n ≤ 100 := by
  unfold roundHalfUp
  have e : 2 * (100 * m) + n = 200 * m + n := by ring
  rw [e]
  have h1 : (200 * m + n) / (2 * n) * (2 * n) ≤ 200 * m + n := Nat.div_mul_le_self _ _
  have h2 : 200 * m + n < ((200 * m + n) / (2 * n) + 1) * (2 * n) :=
    (Nat.div_lt_iff_lt_mul (by omega)).1 (Nat.lt_succ_self _)
  have h3 : (200 * m + n) / (2 * n) < 101 := by
    rw [Nat.div_lt_iff_lt_mul (by omega)]
    omega
  have r1 : (200 * m + n) / (2 * n) * (2 * n) = 2 * ((200 * m + n) / (2 * n) * n) := by ring
  have r2 : ((200 * m + n) / (2 * n) + 1) * (2 * n)
      = 2 * ((200 * m + n) / (2 * n) * n) + 2 * n := by ring
  rw [r1] at h1
  rw [r2] at h2
  exact ⟨h1, h2, by omega⟩

theorem percentage_le_roundHalfUp (m n : Nat) (hn : 0 < n) (hN : n ≤ 2 ^ 32) (h : m ≤ n) :
    ∃ s, percentage m n = some s ∧ s ≤ roundHalfUp (100 * m) n := by
  have hp : (2 : Nat) ^ 32 = 4294967296 := by norm_num
  rw [hp] at hN
  obtain ⟨b1, b2, b3⟩ := roundHalfUp_bounds m n hn h
  obtain ⟨s, e3, hs⟩ := percentage_le m n hn h
  refine ⟨s, e3, ?_⟩
  generalize roundHalfUp (100 * m) n = k at b1 b2 b3 ⊢
  by_cases hk : k = 100
  · omega
  · have hk2 : k < 100 := by omega
    have hth := (percentage_thresholds k hk2).1
    have r1 : ((2 * k + 1) * 4294967296 - 1) * n
        = 4294967296 * (2 * (k * n) + n) - n := by
      rw [Nat.sub_mul]
      congr 1
      · ring
      · ring
    obtain ⟨s1, s2, e1, e2, hle⟩ :=
      percentage_mono m n ((2 * k + 1) * 4294967296 - 1) (200 * 4294967296) hn (by norm_num) h
        (by omega) (by rw [r1]; generalize k * n = P at b1 b2; omega)
    rw [e3] at e1
    rw [hth] at e2
    have : s = s1 := by injection e1
    have : s2 = k := by injection e2 with h; exact h.symm
    omega

theorem percentage_ge_of_lt (m n j : Nat) (hn : 0 < n) (hN : n ≤ 2 ^ 32) (h : m ≤ n)
    (hj : j < 100) (hlt : 2 * (j * n) + n + 1 ≤ 200 * m) :
    ∃ s, percentage m n = some s ∧ j + 1 ≤ s := by
  have hp : (2 : Nat) ^ 32 = 4294967296 := by norm_num
  rw [hp] at hN
  have hth := (percentage_thresholds j hj).2
  have r1 : ((2 * j + 1) * 4294967296 + 1) * n = 4294967296 * (2 * (j * n) + n) + n := by
    ring
  obtain ⟨s1, s2, e1, e2, hle⟩ :=
    percentage_mono ((2 * j + 1) * 4294967296 + 1) (200 * 4294967296) m n (by norm_num) hn
      (by omega) h (by rw [r1]; generalize j * n = P at hlt; omega)
  rw [hth] at e1
  have : s1 = j + 1 := by injection e1 with h; exact h.symm
  exact ⟨s2, e2, by omega⟩

/-- The accuracy of the score arithmetic: for array lengths up to `2^32` the
double computation returns the exactly rounded percentage, except possibly when
the exact percentage lies halfway between two integers, where it returns either
the rounded percentage or the integer below it. -/
theorem percentage_accuracy (m n : Nat) (hn : 0 < n) (hN : n ≤ 2 ^ 32) (h : m ≤ n) :
    ((200 * m + n) % (2 * n) ≠ 0 → percentage m n = some (roundHalfUp (100 * m) n)) ∧
    (percentage m n = some (roundHalfUp (100 * m) n) ∨
     percentage m n = some (roundHalfUp (100 * m) n - 1)) := by
  obtain ⟨b1, b2, b3⟩ := roundHalfUp_bounds m n hn h
  obtain ⟨s, e, hs⟩ := percentage_le_roundHalfUp m n hn hN h
  have hdm : (200 * m + n) / (2 * n) * (2 * n) + (200 * m + n) % (2 * n) = 200 * m + n :=
    Nat.div_add_mod' _ _
  have hk : roundHalfUp (100 * m) n = (200 * m + n) / (2 * n) := by
    unfold roundHalfUp
    congr 1
    ring
  have r1 : (200 * m + n) / (2 * n) * (2 * n) = 2 * ((200 * m + n) / (2 * n) * n) := by ring
  rw [r1, ← hk] at hdm
  generalize roundHalfUp (100 * m) n = k at b1 b2 b3 hs hdm ⊢
  generalize (200 * m + n) % (2 * n) = r at hdm ⊢
  have hkn : ∀ j, j + 1 = k → (j + 1) * n = j * n + n := fun j _ => by ring
  constructor
  · intro hr
    rcases Nat.eq_zero_or_pos k with hk0 | hkpos
    · rw [e]; congr 1; omega
    · obtain ⟨j, hj⟩ : ∃ j, j + 1 = k := ⟨k - 1, by omega⟩
      have hjn := hkn j hj
      subst hj
      rw [hjn] at b1 b2 hdm
      obtain ⟨s', e', hs'⟩ := percentage_ge_of_lt m n j hn hN h (by omega)
        (by generalize j * n = P at b1 b2 hdm; omega)
      rw [e] at e'
      have : s = s' := by injection e'
      rw [e]; congr 1; omega
  · rcases Nat.lt_or_ge k 2 with hk2 | hk2
    · rcases Nat.eq_or_lt_of_le hs with h1 | h1
      · left; rw [e, h1]
      · right; rw [e]; congr 1; omega
    · obtain ⟨j, hj⟩ : ∃ j, j + 2 = k := ⟨k - 2, by omega⟩
      have hjn : (j + 2) * n = j * n + 2 * n := by ring
      subst hj
      rw [hjn] at b1 b2 hdm
      obtain ⟨s', e', hs'⟩ := percentage_ge_of_lt m n j hn hN h (by omega)
        (by generalize j * n = P at b1 b2 hdm; omega)
      rw [e] at e'
      have : s = s' := by injection e'
      rcases Nat.eq_or_lt_of_le hs with h1 | h1
      · left; rw [e, h1]
      · right; rw [e]; congr 1; omega

/-! ## Lemmas on the Dashboard, the Tracker and the status badge -/

theorem foldl_countStatus (applications : List Application) :
    ∀ init : Counts,
      (applications.foldl countStatus init).Applied
        = init.Applied + applications.countP (fun app => decide (app.status = some "Applied")) ∧
      (applications.foldl countStatus init).OA
        = init.OA + applications.countP (fun app => decide (app.status = some "OA")) ∧
      (applications.foldl countStatus init).Interview
        = init.Interview
          + applications.countP (fun app => decide (app.status = some "Interview")) ∧
      (applications.foldl countStatus init).Rejected
        = init.Rejected
          + applications.countP (fun app => decide (app.status = some "Rejected")) ∧
      (applications.foldl countStatus init).Offer
        = init.Offer + applications.countP (fun app => decide (app.status = some "Offer")) ∧
      (applications.foldl countStatus init).total
        = init.total + applications.countP (fun app => decide (app.status = some "total")) := by
  induction applications with
  | nil => intro init; simp
  | cons app rest ih =>
    intro init
    obtain ⟨h1, h2, h3, h4, h5, h6⟩ := ih (countStatus init app)
    simp only [List.foldl_cons, List.countP_cons, h1, h2, h3, h4, h5, h6]
    cases hs : app.status with
    | none => simp [countStatus, hs]
    | some status =>
      unfold countStatus
      simp only [hs, Option.some.injEq, decide_eq_true_eq]
      by_cases c1 : status = "Applied"
      · subst c1; simp; omega
      by_cases c2 : status = "OA"
      · subst c2; simp; omega
      by_cases c3 : status = "Interview"
      · subst c3; simp; omega
      by_cases c4 : status = "Rejected"
      · subst c4; simp; omega
      by_cases c5 : status = "Offer"
      · subst c5; simp; omega
      by_cases c6 : status = "total"
      · subst c6; simp; omega
      simp [c1, c2, c3, c4, c5, c6]

theorem lowerChar_idempotent (c : Char) : toLowerCase (lowerChar c) = lowerChar c := by
  unfold lowerChar
  by_cases h1 : 65 ≤ c.toNat ∧ c.toNat ≤ 90
  · rw [if_pos h1]
    have hc : c = Char.ofNat c.toNat := (Char.ofNat_toNat c).symm
    obtain ⟨n, hn⟩ : ∃ n, c.toNat = n := ⟨_, rfl⟩
    rw [hn] at h1 hc ⊢
    obtain ⟨h65, h90⟩ := h1
    interval_cases n <;> decide
  · rw [if_neg h1]
    by_cases h2 : c.toNat = 0x212A
    · rw [if_pos h2]; decide
    · rw [if_neg h2]
      by_cases h3 : c.toNat = 0x0130
      · rw [if_pos h3]; decide
      · rw [if_neg h3]
        simp [toLowerCase, lowerChar, h1, h2, h3]

theorem toLowerCase_idempotent (l : List Char) : toLowerCase (toLowerCase l) = toLowerCase l := by
  induction l with
  | nil => rfl
  | cons c t ih =>
    rw [toLowerCase_cons, toLowerCase_append, ih, lowerChar_idempotent]

theorem keepWord_eq_withoutAllowlist (w : String) :
    keepWord w = keepWordWithoutAllowlist w := by
  unfold keepWord keepWordWithoutAllowlist
  by_cases ht : techTerms.contains w = true
  · have hw : w ∈ techTerms := by simpa using ht
    obtain ⟨h1, h2⟩ := techTerms_pass w hw
    simp [ht, h1, h2]
  · have ht2 : techTerms.contains w = false := by simpa using ht
    rw [ht2, Bool.or_false]

theorem countP_contains_self (J : List String) :
    J.countP (fun k => J.contains k) = J.length := by
  rw [List.countP_eq_length]
  intro k hk
  simpa using hk

theorem dedupKeepFirst_eq_nil (l : List String) : dedupKeepFirst l = [] ↔ l = [] := by
  cases l with
  | nil => simp [dedupKeepFirst]
  | cons a t => simp [dedupKeepFirst]

theorem missing_eq_nil_iff (R J : List String) :
    (matchKeywords R J).missingKeywords = [] ↔ J.countP (fun k => R.contains k) = J.length := by
  rw [matchKeywords_missing, List.take_eq_nil_iff]
  simp only [OfNat.ofNat_ne_zero, false_or, dedupKeepFirst_eq_nil, List.filter_eq_nil_iff,
    List.countP_eq_length]
  constructor
  · intro h k hk
    have := h k hk
    simpa using this
  · intro h k hk
    have := h k hk
    simpa using this

/-! ## The claims on the score arithmetic, the Dashboard, the Tracker and the status badge -/

/-- C21 (the code departs from the claim): for `m = 29` and `n = 200` the exact
percentage is 14.5, which rounds to 15, while `Math.round((29 / 200) * 100)`
computed in double arithmetic is 14; the same happens in `calculateMatchScore`
for a job description of 40 keywords of which 23 are matched (57 instead of
58). -/
theorem double_rounding_differs_at_29_of_200 :
    percentage 29 200 = some 14 ∧
    roundHalfUp (100 * 29) 200 = 15 ∧
    (200 * 29 + 200) % (2 * 200) = 0 ∧
    mathRound (toDouble (100 * 29) 200) = 15 := by
  decide

/-- C22: for every list of applications and each of the five statuses, the
count in `stats` is the number of applications whose status is exactly that
string; an application with an absent or any other status adds to none of the
five counts. -/
theorem stats_counts_by_status (applications : List Application) :
    (stats applications).Applied
      = applications.countP (fun app => decide (app.status = some "Applied")) ∧
    (stats applications).OA
      = applications.countP (fun app => decide (app.status = some "OA")) ∧
    (stats applications).Interview
      = applications.countP (fun app => decide (app.status = some "Interview")) ∧
    (stats applications).Rejected
      = applications.countP (fun app => decide (app.status = some "Rejected")) ∧
    (stats applications).Offer
      = applications.countP (fun app => decide (app.status = some "Offer")) := by
  obtain ⟨h1, h2, h3, h4, h5, _⟩ := foldl_countStatus applications
    { Applied := 0, OA := 0, Interview := 0, Rejected := 0, Offer := 0,
      total := applications.length }
  unfold stats
  simp only [Nat.zero_add] at h1 h2 h3 h4 h5
  exact ⟨h1, h2, h3, h4, h5⟩

/-- C23 (the code departs from the claim): `total` is an own property of
`counts`, so an application whose status is the string `total` increments it:
`stats.total` is the number of applications plus the number of applications
with status `total`; for the single application with status `total` it is 2. -/
theorem stats_total_counts_status_total :
    (∀ applications : List Application,
      (stats applications).total
        = applications.length
          + applications.countP (fun app => decide (app.status = some "total"))) ∧
    (stats [⟨some "Acme", some "Intern", some "total"⟩]).total = 2 ∧
    [(⟨some "Acme", some "Intern", some "total"⟩ : Application)].length = 1 := by
  refine ⟨fun applications => ?_, by decide, by decide⟩
  exact (foldl_countStatus applications _).2.2.2.2.2

/-- C24: every technical term has length at least 2 and is not a stop word, so
for every text `extractKeywords` returns the same sequence as the tokenizer
whose filter is only (length at least 2 and not a stop word). -/
theorem allowlist_is_redundant :
    (∀ t ∈ techTerms, 2 ≤ t.length ∧ t ∉ stopWords) ∧
    techTerms = ["ai", "ml", "ui", "ux", "qa", "ci", "cd", "js", "ts", "db", "c#", "c++"] ∧
    ∀ text : Text, extractKeywords text = extractKeywordsWithoutAllowlist text := by
  refine ⟨fun t ht => ⟨(techTerms_pass t ht).2, (techTerms_pass t ht).1⟩, rfl, fun text => ?_⟩
  have hf : keepWord = keepWordWithoutAllowlist := funext keepWord_eq_withoutAllowlist
  unfold extractKeywords extractKeywordsWithoutAllowlist
  rw [hf]

/-- C25: when every keyword of the candidate `c1` is a keyword of the candidate
`c2`, the score for `c1` is at most the score for `c2`, and every entry of the
first `matchedKeywords` is an entry of the second. -/
theorem more_keywords_never_lower (c1 c2 target : Text)
    (h : ∀ k : String, k ∈ extractKeywords c1 → k ∈ extractKeywords c2) :
    (∃ s1 s2 : Nat, (calculateMatchScore c1 target).score = some s1 ∧
      (calculateMatchScore c2 target).score = some s2 ∧ s1 ≤ s2) ∧
    ∀ k : String, k ∈ (calculateMatchScore c1 target).matchedKeywords →
      k ∈ (calculateMatchScore c2 target).matchedKeywords := by
  constructor
  · unfold calculateMatchScore
    rw [matchKeywords_score, matchKeywords_score]
    by_cases hn : 0 < (extractKeywords target).length
    · rw [if_pos hn, if_pos hn]
      apply percentage_mono _ _ _ _ hn hn (List.countP_le_length _) (List.countP_le_length _)
      apply Nat.mul_le_mul_right
      apply List.countP_mono_left
      intro k _ hk
      have hk1 : k ∈ extractKeywords c1 := by simpa using hk
      simpa using h k hk1
    · rw [if_neg hn, if_neg hn]
      exact ⟨0, 0, rfl, rfl, le_refl _⟩
  · intro k hk
    have h1 := (mem_matched _ _ k).1 hk
    exact (mem_matched _ _ k).2 ⟨h1.1, h k h1.2⟩

/-- C25, applied to the candidates `python` and `python react`. -/
theorem more_keywords_never_lower_witness :
    (∀ k : String, k ∈ extractKeywords (Text.str "python") →
      k ∈ extractKeywords (Text.str "python react")) ∧
    ∃ s1 s2 : Nat,
      (calculateMatchScore (Text.str "python") (Text.str "python react sql")).score = some s1 ∧
      (calculateMatchScore (Text.str "python react") (Text.str "python react sql")).score
        = some s2 ∧ s1 ≤ s2 := by
  have h : ∀ k : String, k ∈ extractKeywords (Text.str "python") →
      k ∈ extractKeywords (Text.str "python react") := by
    have h1 : extractKeywords (Text.str "python") = ["python"] := by decide
    have h2 : extractKeywords (Text.str "python react") = ["python", "react"] := by decide
    rw [h1, h2]
    intro k hk
    simp only [List.mem_singleton] at hk
    subst hk
    simp
  exact ⟨h, (more_keywords_never_lower (Text.str "python") (Text.str "python react")
    (Text.str "python react sql") h).1⟩

/-- C26: for every text with at least one keyword, matching the text against
itself gives the score 100, empty `missingKeywords`, and `matchedKeywords` equal
to the deduplicated keyword sequence of the text, in first-occurrence order. -/
theorem self_match_is_perfect (text : Text) (h : extractKeywords text ≠ []) :
    calculateMatchScore text text
      = ⟨some 100, dedupKeepFirst (extractKeywords text), []⟩ := by
  have hn : 0 < (extractKeywords text).length := List.length_pos.2 h
  have hs : (calculateMatchScore text text).score = some 100 := by
    unfold calculateMatchScore
    rw [matchKeywords_score, if_pos hn, countP_contains_self]
    exact percentage_self _ hn
  have hm : (calculateMatchScore text text).matchedKeywords
      = dedupKeepFirst (extractKeywords text) := by
    unfold calculateMatchScore
    rw [matchKeywords_matched]
    congr 1
    rw [List.filter_eq_self]
    intro k hk
    simpa using hk
  have hx : (calculateMatchScore text text).missingKeywords = [] := by
    unfold calculateMatchScore
    rw [missing_eq_nil_iff, countP_contains_self]
  cases hr : calculateMatchScore text text with
  | mk s m x =>
    rw [hr] at hs hm hx
    simp only at hs hm hx
    rw [hs, hm, hx]

/-- C26, applied to the text `Python and React, Python`. -/
theorem self_match_is_perfect_witness :
    extractKeywords (Text.str "Python and React, Python") ≠ [] ∧
    calculateMatchScore (Text.str "Python and React, Python")
        (Text.str "Python and React, Python")
      = ⟨some 100, ["python", "react"], []⟩ :=
  ⟨by decide,
   (self_match_is_perfect (Text.str "Python and React, Python") (by decide)).trans
     (by decide)⟩

set_option maxRecDepth 1000000 in
theorem twoHundredKeywords_result :
    (extractKeywords (Text.str twoHundredKeywords)).length = 200 ∧
    calculateMatchScore (Text.str "aa") (Text.str twoHundredKeywords)
      = ⟨some 100, ["aa"], ["bb"]⟩ := by
  decide

/-- C27: for a target with `n` keywords (`1 ≤ n ≤ 2^32`) of which `m` are found
in the candidate, the score is 100 exactly when `200 * (n - m) ≤ n`, both for
the double arithmetic of the code and for exact round-half-up arithmetic; when
`n < 200` the score is 100 exactly when `missingKeywords` is empty; and for 200
keywords of which 199 are found the score is 100 with a missing keyword. -/
theorem perfect_score_iff :
    (∀ r j : Text, 1 ≤ (extractKeywords j).length → (extractKeywords j).length ≤ 2 ^ 32 →
      ((calculateMatchScore r j).score = some 100 ↔
        200 * ((extractKeywords j).length
            - (extractKeywords j).countP (fun k => (extractKeywords r).contains k))
          ≤ (extractKeywords j).length) ∧
      (roundHalfUp
          (100 * (extractKeywords j).countP (fun k => (extractKeywords r).contains k))
          (extractKeywords j).length = 100 ↔
        200 * ((extractKeywords j).length
            - (extractKeywords j).countP (fun k => (extractKeywords r).contains k))
          ≤ (extractKeywords j).length) ∧
      ((extractKeywords j).length < 200 →
        ((calculateMatchScore r j).score = some 100 ↔
          (calculateMatchScore r j).missingKeywords = []))) ∧
    (extractKeywords (Text.str twoHundredKeywords)).length = 200 ∧
    calculateMatchScore (Text.str "aa") (Text.str twoHundredKeywords)
      = ⟨some 100, ["aa"], ["bb"]⟩ := by
  refine ⟨fun r j hn hN => ?_, twoHundredKeywords_result⟩
  have hm : (extractKeywords j).countP (fun k => (extractKeywords r).contains k)
      ≤ (extractKeywords j).length := List.countP_le_length _
  have hs : (calculateMatchScore r j).score
      = percentage ((extractKeywords j).countP (fun k => (extractKeywords r).contains k))
          (extractKeywords j).length := by
    unfold calculateMatchScore
    rw [matchKeywords_score, if_pos (by omega)]
  have h1 := percentage_eq_100_iff _ _ (by omega) hN hm
  refine ⟨by rw [hs]; exact h1, roundHalfUp_eq_100_iff _ _ (by omega) hm, fun h200 => ?_⟩
  rw [hs, h1]
  unfold calculateMatchScore
  rw [missing_eq_nil_iff]
  omega

/-- C27, applied to the candidate `python` and the target `python react`. -/
theorem perfect_score_iff_witness :
    1 ≤ (extractKeywords (Text.str "python react")).length ∧
    (extractKeywords (Text.str "python react")).length ≤ 2 ^ 32 ∧
    ((calculateMatchScore (Text.str "python") (Text.str "python react")).score = some 100 ↔
      (calculateMatchScore (Text.str "python") (Text.str "python react")).missingKeywords
        = []) :=
  ⟨by decide, by decide,
   (perfect_score_iff.1 (Text.str "python") (Text.str "python react") (by decide)
      (by decide)).2.2 (by decide)⟩

/-- C28: a word followed by a full stop is a different keyword from the bare
word: the candidate `Python.` has the keyword `python.`, and matched against the
target `Python` it gives the score 0, no matched keyword and the missing
keyword `python`. -/
theorem full_stop_is_kept :
    extractKeywords (Text.str "Python.") = ["python."] ∧
    extractKeywords (Text.str "Python") = ["python"] ∧
    calculateMatchScore (Text.str "Python.") (Text.str "Python")
      = ⟨some 0, [], ["python"]⟩ := by
  decide

/-- C29: an application is in `filteredApplications` exactly when it is in the
input, its company or its role is present and contains the lower-cased search
term after lower-casing, and the status filter is `All` or equals its status;
each application occurs in the result as often as in the input when it
qualifies and not at all otherwise; with the empty search term and the filter
`All` the applications listed are those with a company or a role. -/
theorem filteredApplications_spec (sortByDate : List Application → List Application)
    (lower : String → String) (applications : List Application)
    (searchTerm statusFilter : String)
    (hsort : ∀ l : List Application, (sortByDate l).Perm l) :
    (∀ app : Application,
      app ∈ filteredApplications sortByDate lower applications searchTerm statusFilter ↔
        app ∈ applications ∧
        ((∃ company, app.company = some company ∧
            includes (lower company) (lower searchTerm) = true) ∨
         (∃ role, app.role = some role ∧
            includes (lower role) (lower searchTerm) = true)) ∧
        (statusFilter = "All" ∨ app.status = some statusFilter)) ∧
    (∀ app : Application,
      (filteredApplications sortByDate lower applications searchTerm statusFilter).count app
        = if matchesSearch lower searchTerm app = true ∧ matchesStatus statusFilter app = true
          then applications.count app else 0) ∧
    (lower "" = "" → searchTerm = "" → statusFilter = "All" →
      ∀ app : Application,
        app ∈ filteredApplications sortByDate lower applications searchTerm statusFilter ↔
          app ∈ applications ∧ (app.company ≠ none ∨ app.role ≠ none)) := by
  have hsearch : ∀ app : Application, matchesSearch lower searchTerm app = true ↔
      ((∃ company, app.company = some company ∧
          includes (lower company) (lower searchTerm) = true) ∨
       (∃ role, app.role = some role ∧
          includes (lower role) (lower searchTerm) = true)) := by
    intro app
    unfold matchesSearch
    cases hc : app.company <;> cases hr : app.role <;> simp
  have hstatus : ∀ app : Application, matchesStatus statusFilter app = true ↔
      (statusFilter = "All" ∨ app.status = some statusFilter) := by
    intro app
    simp [matchesStatus]
  have hmem : ∀ app : Application,
      app ∈ filteredApplications sortByDate lower applications searchTerm statusFilter ↔
        app ∈ applications ∧ matchesSearch lower searchTerm app = true ∧
          matchesStatus statusFilter app = true := by
    intro app
    unfold filteredApplications
    rw [(hsort _).mem_iff, List.mem_filter, List.mem_filter, and_assoc]
  refine ⟨fun app => ?_, fun app => ?_, fun hl hs hf app => ?_⟩
  · rw [hmem, hsearch, hstatus]
  · unfold filteredApplications
    rw [(hsort _).count_eq, List.filter_filter]
    by_cases h : matchesSearch lower searchTerm app = true ∧
        matchesStatus statusFilter app = true
    · rw [if_pos h]
      apply List.count_filter
      simp [h.1, h.2]
    · rw [if_neg h]
      apply List.count_eq_zero.2
      intro hmem2
      have h2 := (List.mem_filter.1 hmem2).2
      simp only [Bool.and_eq_true] at h2
      exact h ⟨h2.2, h2.1⟩
  · rw [hmem]
    subst hs hf
    have h1 : matchesStatus "All" app = true := by simp [matchesStatus]
    have h2 : matchesSearch lower "" app = true ↔ (app.company ≠ none ∨ app.role ≠ none) := by
      unfold matchesSearch
      simp only [hl, includes, List.nil_infix, decide_True]
      cases hc : app.company <;> cases hr : app.role <;> simp
    rw [h2]
    simp [h1]

/-- C29, applied to three applications, the search term `ac` and the filter
`Applied`, with the identity for the date sort and the lower-casing. -/
theorem filteredApplications_spec_witness :
    (∀ l : List Application, (id l).Perm l) ∧
    ∀ app : Application,
      app ∈ filteredApplications id id
          [⟨some "acme", none, some "Applied"⟩, ⟨none, some "backend", some "Applied"⟩,
           ⟨none, none, some "Applied"⟩] "ac" "Applied" ↔
        app ∈ [(⟨some "acme", none, some "Applied"⟩ : Application),
               ⟨none, some "backend", some "Applied"⟩, ⟨none, none, some "Applied"⟩] ∧
        ((∃ company, app.company = some company ∧ includes (id company) (id "ac") = true) ∨
         (∃ role, app.role = some role ∧ includes (id role) (id "ac") = true)) ∧
        ("Applied" = "All" ∨ app.status = some "Applied") :=
  ⟨fun l => List.Perm.refl l,
   (filteredApplications_spec id id
      [⟨some "acme", none, some "Applied"⟩, ⟨none, some "backend", some "Applied"⟩,
       ⟨none, none, some "Applied"⟩] "ac" "Applied" (fun l => List.Perm.refl l)).1⟩

/-- C30: `statusBadgeClasses` returns for every status string the class string
of the lower-cased string; it returns the gray default exactly when the
lower-cased status is none of `applied`, `oa`, `interview`, `rejected`,
`offer`, in particular for `null`, `undefined` and the empty string; and the
five known statuses have five pairwise distinct class strings, none of them the
default. -/
theorem statusBadgeClasses_spec :
    (∀ s : String,
      statusBadgeClasses (Text.str s)
        = statusBadgeClasses (Text.str (String.mk (toLowerCase s.data)))) ∧
    (∀ status : Text,
      statusBadgeClasses status = defaultBadgeClasses ↔
        statusKey status ∉ ["applied", "oa", "interview", "rejected", "offer"]) ∧
    statusBadgeClasses Text.null = defaultBadgeClasses ∧
    statusBadgeClasses Text.undefined = defaultBadgeClasses ∧
    statusBadgeClasses (Text.str "") = defaultBadgeClasses ∧
    [statusBadgeClasses (Text.str "applied"), statusBadgeClasses (Text.str "oa"),
     statusBadgeClasses (Text.str "interview"), statusBadgeClasses (Text.str "rejected"),
     statusBadgeClasses (Text.str "offer"), defaultBadgeClasses].Nodup ∧
    statusBadgeClasses (Text.str "Applied") = statusBadgeClasses (Text.str "applied") ∧
    statusBadgeClasses (Text.str "OA") = statusBadgeClasses (Text.str "oa") := by
  refine ⟨fun s => ?_, fun status => ?_, by decide, by decide, by decide, by decide,
    by decide, by decide⟩
  · have hk : statusKey (Text.str (String.mk (toLowerCase s.data))) = statusKey (Text.str s) := by
      simp only [statusKey, toLowerCase_idempotent]
    unfold statusBadgeClasses
    rw [hk]
  · unfold statusBadgeClasses
    simp only [List.mem_cons, List.mem_singleton, List.not_mem_nil, or_false, not_or]
    generalize statusKey status = key
    by_cases h1 : key = "applied"
    · subst h1; decide
    by_cases h2 : key = "oa"
    · subst h2; decide
    by_cases h3 : key = "interview"
    · subst h3; decide
    by_cases h4 : key = "rejected"
    · subst h4; decide
    by_cases h5 : key = "offer"
    · subst h5; decide
    simp [h1, h2, h3, h4, h5]

end InternTrack
